import Mathlib

/-!
# Number-theoretic transform: a shallow embedding of `ntt_project.c`

The C program multiplies two polynomials modulo `998244353` with an iterative,
in-place Cooley-Tukey transform.  This file embeds its four functions
(`qpow`, `get_rev`, `ntt`, `poly_multiply`) and proves properties of them.

Conventions of the embedding.

* `long long` and `int` values are integers (`Int`); the result of a signed
  operation is brought back into the machine range with `wrap64` / `wrap32`
  (two's complement wrap-around), and C's `%` is `Int.tmod` (truncation toward
  zero).
* An array (`ll *a`, `int *r`) is the list of its elements; `load a i` reads
  `a[i]` and `store a i v` is the assignment `a[i] = v`.  An index outside the
  array, which C leaves undefined, reads `0` and stores nothing.
* A `for (int i = 0; i < n; i++)` loop is a left fold of its body over
  `List.range n`; a loop with another stride or exit test is a recursion on a
  fuel argument that mirrors the test.
* Loop counters and lengths inside `get_rev` and `ntt` are natural numbers: for
  a power-of-two length that fits an `int` the counters `i`, `mid` and
  `j + k + mid` never wrap.
* The residues of the values are taken in `ZMod 998244353`; the theorems about
  the C functions are stated on the integers.
-/

namespace NTT

/-! ## Machine arithmetic -/

/-- The modulus `#define MOD 998244353`. -/
def MOD : Int := 998244353

/-- The primitive root `#define G 3`. -/
def G : Int := 3

/-- The inverse of the primitive root, `#define G_INV 332748118`. -/
def G_INV : Int := 332748118

/-- Two's complement wrap-around of a signed 64-bit (`long long`) result. -/
def wrap64 (x : Int) : Int := (x + 2 ^ 63) % 2 ^ 64 - 2 ^ 63

/-- Two's complement wrap-around of a signed 32-bit (`int`) result. -/
def wrap32 (x : Int) : Int := (x + 2 ^ 31) % 2 ^ 32 - 2 ^ 31

/-- The value fits a signed 64-bit integer. -/
def inRange64 (x : Int) : Prop := -(2 ^ 63) ≤ x ∧ x < 2 ^ 63

instance (x : Int) : Decidable (inRange64 x) := by
  unfold inRange64; infer_instance

/-- The read `a[i]`. -/
def load (a : List Int) (i : Nat) : Int := a.getD i 0

/-- The assignment `a[i] = v`. -/
def store (a : List Int) (i : Nat) (v : Int) : List Int := a.set i v

/-! ## `qpow` -/

/-- The loop of `qpow`:
`while (exp > 0) { if (exp & 1) res = (res * base) % MOD;
                   base = (base * base) % MOD; exp >>= 1; }  return res;` -/
def qpow_loop : Nat → Int → Int → Int → Int
  | 0, res, _, _ => res
  | fuel + 1, res, base, exp =>
    if exp > 0 then
      qpow_loop fuel
        (if exp % 2 = 1 then (wrap64 (res * base)).tmod MOD else res)
        ((wrap64 (base * base)).tmod MOD)
        (exp >>> (1 : Nat))
    else res

/-- The function `ll qpow(ll base, ll exp)`.  A positive `long long` exponent has
at most 63 bits, so 64 rounds of the loop always reach `exp = 0`. -/
def qpow (base exp : Int) : Int := qpow_loop 64 1 base exp

/-- Ghost predicate over the loop of `qpow`: every product the loop forms, taken
in the integers before any wrap-around, fits a signed 64-bit integer. -/
def qpow_loop_inRange : Nat → Int → Int → Int → Prop
  | 0, _, _, _ => True
  | fuel + 1, res, base, exp =>
    if exp > 0 then
      (exp % 2 = 1 → inRange64 (res * base)) ∧ inRange64 (base * base) ∧
      qpow_loop_inRange fuel
        (if exp % 2 = 1 then (wrap64 (res * base)).tmod MOD else res)
        ((wrap64 (base * base)).tmod MOD)
        (exp >>> (1 : Nat))
    else True

/-- No product formed by `qpow base exp` overflows. -/
def qpow_inRange (base exp : Int) : Prop := qpow_loop_inRange 64 1 base exp

/-! ## `get_rev` -/

/-- The loop `while ((1 << bit_len) < limit) bit_len++;`. -/
def bit_len_loop : Nat → Nat → Int → Nat
  | 0, bit_len, _ => bit_len
  | fuel + 1, bit_len, limit =>
    if wrap32 (2 ^ bit_len) < limit then bit_len_loop fuel (bit_len + 1) limit else bit_len

/-- One round of the table loop:
`r[i] = (r[i >> 1] >> 1) | ((i & 1) << (bit_len - 1));`.
The shift count `bit_len - 1` is truncated at zero: it is negative only for
`limit = 1`, where the only index is `i = 0` and the shifted value is `0`. -/
def get_rev_body (bit_len : Nat) (r : List Int) (i : Nat) : List Int :=
  store r i (Int.lor (load r (i / 2) >>> (1 : Nat)) (wrap32 (((i % 2 : Nat) : Int) * 2 ^ (bit_len - 1))))

/-- The function `void get_rev(int limit, int *r)`; the argument `r` is the
content of the buffer on entry, the value is its content on return. -/
def get_rev (limit : Nat) (r : List Int) : List Int :=
  let bit_len := bit_len_loop 32 0 limit
  (List.range limit).foldl (get_rev_body bit_len) r

/-! ## `ntt` -/

/-- One round of the permutation loop:
`if (i < r[i]) { ll temp = a[i]; a[i] = a[r[i]]; a[r[i]] = temp; }`. -/
def ntt_swap (r : List Int) (a : List Int) (i : Nat) : List Int :=
  if (i : Int) < load r i then
    let temp := load a i
    let a1 := store a i (load a (load r i).toNat)
    store a1 (load r i).toNat temp
  else a

/-- One round of the innermost loop, on the pair (array, running twiddle `w`):
`x = a[j+k]; y = (w * a[j+k+mid]) % MOD; a[j+k] = (x + y) % MOD;
 a[j+k+mid] = (x - y + MOD) % MOD; w = (w * wn) % MOD;`. -/
def ntt_butterfly (wn : Int) (mid j : Nat) (s : List Int × Int) (k : Nat) :
    List Int × Int :=
  let a := s.1
  let w := s.2
  let x := load a (j + k)
  let y := (wrap64 (w * load a (j + k + mid))).tmod MOD
  let a1 := store a (j + k) ((wrap64 (x + y)).tmod MOD)
  let a2 := store a1 (j + k + mid) ((wrap64 (wrap64 (x - y) + MOD)).tmod MOD)
  (a2, (wrap64 (w * wn)).tmod MOD)

/-- The body of the `j` loop: `ll w = 1; for (int k = 0; k < mid; k++) ...`. -/
def ntt_block (wn : Int) (mid : Nat) (a : List Int) (j : Nat) : List Int :=
  ((List.range mid).foldl (ntt_butterfly wn mid j) (a, 1)).1

/-- The loop `for (int j = 0; j < limit; j += (mid << 1))`. -/
def ntt_blocks (wn : Int) (mid limit : Nat) : Nat → Nat → List Int → List Int
  | 0, _, a => a
  | fuel + 1, j, a =>
    if j < limit then ntt_blocks wn mid limit fuel (j + 2 * mid) (ntt_block wn mid a j) else a

/-- The loop `for (int mid = 1; mid < limit; mid <<= 1)` with
`wn = qpow(type == 1 ? G : G_INV, (MOD - 1) / (mid << 1))`. -/
def ntt_passes (type : Int) (limit : Nat) : Nat → Nat → List Int → List Int
  | 0, _, a => a
  | fuel + 1, mid, a =>
    if mid < limit then
      let wn := qpow (if type = 1 then G else G_INV) ((MOD - 1) / ((2 * mid : Nat) : Int))
      ntt_passes type limit fuel (2 * mid) (ntt_blocks wn mid limit limit 0 a)
    else a

/-- One round of the scaling loop: `a[i] = (a[i] * inv) % MOD;`. -/
def ntt_scale (inv : Int) (a : List Int) (i : Nat) : List Int :=
  store a i ((wrap64 (load a i * inv)).tmod MOD)

/-- The function `void ntt(ll *a, int limit, int type, int *r)`; the value is the
content of `a` on return.  The `mid` loop doubles `mid` at most 31 times before
it reaches any `int` length, and the `j` loop advances by at least 2, so the
fuel `32` and `limit` never run out. -/
def ntt (a : List Int) (limit : Nat) (type : Int) (r : List Int) : List Int :=
  let a1 := (List.range limit).foldl (ntt_swap r) a
  let a2 := ntt_passes type limit 32 1 a1
  if type = -1 then
    let inv := qpow limit (MOD - 2)
    (List.range limit).foldl (ntt_scale inv) a2
  else a2

/-! ## `poly_multiply` -/

/-- The loop `while (limit <= degA + degB) limit <<= 1;` on `int` values; `none`
when the fuel runs out before the loop exits. -/
def limit_loop : Nat → Int → Int → Option Int
  | 0, _, _ => none
  | fuel + 1, limit, s =>
    if limit ≤ s then limit_loop fuel (wrap32 (limit * 2)) s else some limit

/-- One round of a copy loop `dst[i] = src[i];`. -/
def copy_body (src : List Int) (dst : List Int) (i : Nat) : List Int :=
  store dst i (load src i)

/-- One round of the pointwise product loop: `a[i] = (a[i] * b[i]) % MOD;`. -/
def pointwise_body (b : List Int) (a : List Int) (i : Nat) : List Int :=
  store a i ((wrap64 (load a i * load b i)).tmod MOD)

/-- The body of `poly_multiply` after the search for `limit`: allocation, the
two copy loops, `get_rev`, the three transforms with the pointwise product
between them, and the final copy loop.  `result` is the content of the output
buffer on entry.  `heap i` is the value that element `i` of the block handed
out by `malloc` for the table `r` happens to hold (`calloc` blocks hold
zeros).  The value is the returned `limit` with the content of `result` on
return. -/
def poly_multiply_body (limit : Int) (polyA : List Int) (degA : Nat) (polyB : List Int)
    (degB : Nat) (result : List Int) (heap : Nat → Int) : Int × List Int :=
  let n := limit.toNat
  let a0 : List Int := List.replicate n 0
  let b0 : List Int := List.replicate n 0
  let r0 : List Int := (List.range n).map heap
  let a1 := (List.range (degA + 1)).foldl (copy_body polyA) a0
  let b1 := (List.range (degB + 1)).foldl (copy_body polyB) b0
  let r := get_rev n r0
  let a2 := ntt a1 n 1 r
  let b2 := ntt b1 n 1 r
  let a3 := (List.range n).foldl (pointwise_body b2) a2
  let a4 := ntt a3 n (-1) r
  (limit, (List.range n).foldl (copy_body a4) result)

/-- The function `int poly_multiply(polyA, degA, polyB, degB, result)`: the
search for `limit`, then the body.  The value is `none` when the search does
not end within 64 rounds (after 32 doublings an `int` is `0` and stays so). -/
def poly_multiply (polyA : List Int) (degA : Nat) (polyB : List Int) (degB : Nat)
    (result : List Int) (heap : Nat → Int) : Option (Int × List Int) :=
  (limit_loop 64 1 (wrap32 ((degA : Int) + (degB : Int)))).map
    (fun limit => poly_multiply_body limit polyA degA polyB degB result heap)

/-! ## Reference definitions used in the statements -/

/-- Bit reversal within `k` bits: bit `b` of `i` moves to position `k - 1 - b`. -/
def bitrev (k i : Nat) : Nat :=
  ∑ b in Finset.range k, (i / 2 ^ b % 2) * 2 ^ (k - 1 - b)

/-- The table of `2 ^ k` entries whose entry `i` is `i` with its `k` bits reversed. -/
def rev_table (k : Nat) : List Int :=
  (List.range (2 ^ k)).map (fun i => ((bitrev k i : Nat) : Int))

/-- A field element: an integer in `[0, MOD)`. -/
def InField (x : Int) : Prop := 0 ≤ x ∧ x < MOD

instance (x : Int) : Decidable (InField x) := by
  unfold InField; infer_instance

/-- Coefficient `i` of the schoolbook product of `A` (degree `degA`) and `B`
(degree `degB`): the sum of `A[j] * B[i-j]` over `0 ≤ j ≤ degA`, `0 ≤ i-j ≤ degB`. -/
def schoolbook (A : List Int) (degA : Nat) (B : List Int) (degB : Nat) (i : Nat) : Int :=
  ∑ j in Finset.range (degA + 1),
    if j ≤ i ∧ i - j ≤ degB then load A j * load B (i - j) else 0

/-- The ring of residues modulo `MOD`, in which the algebra of the transform is
carried out. -/
abbrev F : Type := ZMod 998244353

/-- The discrete Fourier transform of size `m` with root `w`: the polynomial
with coefficients `f 0, ..., f (m-1)` evaluated at `w ^ p`. -/
def dft (w : F) (m : Nat) (f : Nat → F) (p : Nat) : F :=
  ∑ q in Finset.range m, f q * w ^ (p * q)

/-- The state of the array between two passes of `ntt`, relative to the residues
`f0` of the input: blocks of `2 ^ t` entries are already transformed, `2 ^ s`
blocks remain to be merged.  Block `b` holds the transform, with root
`Ω ^ (2 ^ s)`, of the entries of the input at `bitrev s b + q * 2 ^ s`. -/
def Stage (Ω : F) (f0 : Nat → F) (n s t : Nat) (a : List Int) : Prop :=
  n = 2 ^ (s + t) ∧ a.length = n ∧ (∀ i, i < n → InField (load a i)) ∧
  ∀ b, b < 2 ^ s → ∀ p, p < 2 ^ t →
    ((load a (b * 2 ^ t + p) : Int) : F) =
      dft (Ω ^ (2 ^ s)) (2 ^ t) (fun q => f0 (bitrev s b + q * 2 ^ s)) p

/-- The residue of the root of unity of order `2 ^ k` that `ntt` derives from
`G` (forward, `type = 1`) or from `G_INV` (inverse). -/
def root (type : Int) (k : Nat) : F :=
  (((if type = 1 then G else G_INV : Int)) : F) ^ (998244352 / 2 ^ k)

/-! ## Ghost predicates: the ranges of the values that `ntt` forms

Each predicate follows the loop of the same name and records, for every
statement the loop executes, that the operands are field elements and that the
sum, difference or product the statement forms, taken in the integers before any
wrap-around, stays in the stated range. -/

/-- The value lies in `[0, 2 ^ 63)`. -/
def InRange63 (x : Int) : Prop := 0 ≤ x ∧ x < 2 ^ 63

/-- One round of the innermost loop of `ntt` in state `s = (a, w)`: `w` and `wn`
are field elements; the products `w * a[j+k+mid]` and `w * wn`, the sum `x + y`
and the difference plus modulus `x - y + MOD` lie in `[0, 2 ^ 63)`; the
difference `x - y` fits 64 bits; `y`, both stored values and the next `w` are
field elements. -/
def ntt_butterfly_inRange (wn : Int) (mid j : Nat) (s : List Int × Int) (k : Nat) : Prop :=
  let a := s.1
  let w := s.2
  let x := load a (j + k)
  let y := (wrap64 (w * load a (j + k + mid))).tmod MOD
  InField w ∧ InField wn ∧
  InRange63 (w * load a (j + k + mid)) ∧ InField y ∧
  InRange63 (x + y) ∧ InField ((wrap64 (x + y)).tmod MOD) ∧
  inRange64 (x - y) ∧ InRange63 (x - y + MOD) ∧
  InField ((wrap64 (wrap64 (x - y) + MOD)).tmod MOD) ∧
  InRange63 (w * wn) ∧ InField ((wrap64 (w * wn)).tmod MOD)

/-- Every round `k < mid` of the block at `j`, each in the state the previous
rounds leave. -/
def ntt_block_inRange (wn : Int) (mid : Nat) (a : List Int) (j : Nat) : Prop :=
  ∀ k, k < mid →
    ntt_butterfly_inRange wn mid j ((List.range k).foldl (ntt_butterfly wn mid j) (a, 1)) k

/-- Every block of the loop `for (int j = 0; j < limit; j += (mid << 1))`. -/
def ntt_blocks_inRange (wn : Int) (mid limit : Nat) : Nat → Nat → List Int → Prop
  | 0, _, _ => True
  | fuel + 1, j, a =>
    if j < limit then
      ntt_block_inRange wn mid a j ∧
      ntt_blocks_inRange wn mid limit fuel (j + 2 * mid) (ntt_block wn mid a j)
    else True

/-- Every pass of the loop `for (int mid = 1; mid < limit; mid <<= 1)`: the call
of `qpow` that computes `wn` does not overflow, and every block of the pass is in
range. -/
def ntt_passes_inRange (type : Int) (limit : Nat) : Nat → Nat → List Int → Prop
  | 0, _, _ => True
  | fuel + 1, mid, a =>
    if mid < limit then
      qpow_inRange (if type = 1 then G else G_INV) ((MOD - 1) / ((2 * mid : Nat) : Int)) ∧
      ntt_blocks_inRange
        (qpow (if type = 1 then G else G_INV) ((MOD - 1) / ((2 * mid : Nat) : Int)))
        mid limit limit 0 a ∧
      ntt_passes_inRange type limit fuel (2 * mid)
        (ntt_blocks (qpow (if type = 1 then G else G_INV) ((MOD - 1) / ((2 * mid : Nat) : Int)))
          mid limit limit 0 a)
    else True

/-- Every round of the scaling loop `a[i] = (a[i] * inv) % MOD`: `inv` is a
field element, the product lies in `[0, 2 ^ 63)` and the stored value is a field
element. -/
def ntt_scale_inRange (inv : Int) (limit : Nat) (a : List Int) : Prop :=
  InField inv ∧ ∀ i, i < limit →
    InRange63 (load ((List.range i).foldl (ntt_scale inv) a) i * inv) ∧
    InField ((wrap64 (load ((List.range i).foldl (ntt_scale inv) a) i * inv)).tmod MOD)

/-- The whole of `ntt`: the array is made of field elements after the
permutation loop, every pass is in range, and in inverse mode the call
`qpow(limit, MOD - 2)` and the scaling loop are in range. -/
def ntt_inRange (a : List Int) (limit : Nat) (type : Int) (r : List Int) : Prop :=
  (∀ i, i < limit → InField (load ((List.range limit).foldl (ntt_swap r) a) i)) ∧
  ntt_passes_inRange type limit 32 1 ((List.range limit).foldl (ntt_swap r) a) ∧
  (type = -1 →
    qpow_inRange (limit : Int) (MOD - 2) ∧
    ntt_scale_inRange (qpow (limit : Int) (MOD - 2)) limit
      (ntt_passes type limit 32 1 ((List.range limit).foldl (ntt_swap r) a)))

/-! ## Machine arithmetic on field elements -/

theorem wrap64_of_inRange {x : Int} (h : inRange64 x) : wrap64 x = x := by
  unfold inRange64 at h
  unfold wrap64
  omega

theorem wrap32_of_lt {x : Int} (h0 : 0 ≤ x) (h1 : x < 2 ^ 31) : wrap32 x = x := by
  unfold wrap32
  omega

theorem modulus_eq : MOD = 998244353 := rfl

theorem mul_bound {x y : Int} (hx0 : 0 ≤ x) (hx : x < MOD) (hy0 : 0 ≤ y)
    (hy : y ≤ 3037000499) : 0 ≤ x * y ∧ x * y < 2 ^ 63 := by
  constructor
  · exact mul_nonneg hx0 hy0
  · have h1 : x * y ≤ 998244352 * 3037000499 := by
      apply mul_le_mul _ hy hy0 (by norm_num)
      rw [modulus_eq] at hx; omega
    omega

theorem sq_bound {y : Int} (hy0 : 0 ≤ y) (hy : y ≤ 3037000499) :
    0 ≤ y * y ∧ y * y < 2 ^ 63 := by
  constructor
  · exact mul_nonneg hy0 hy0
  · have h1 : y * y ≤ 3037000499 * 3037000499 := mul_le_mul hy hy hy0 (by norm_num)
    omega

/-- The C expression `(x * y) % MOD` on values whose product fits 63 bits. -/
theorem mulmod_eq {x y : Int} (h0 : 0 ≤ x * y) (h1 : x * y < 2 ^ 63) :
    (wrap64 (x * y)).tmod MOD = (x * y) % MOD := by
  rw [wrap64_of_inRange ⟨by omega, h1⟩, Int.tmod_eq_emod h0 (by decide)]

theorem emod_inField (x : Int) : InField (x % MOD) :=
  ⟨Int.emod_nonneg _ (by decide), Int.emod_lt_of_pos _ (by decide)⟩

/-! ## `qpow` computes the power modulo `MOD` -/

theorem qpow_loop_spec (fuel : Nat) : ∀ (res base : Int) (e : Nat),
    InField res → 0 ≤ base → base ≤ 3037000499 → e < 2 ^ fuel →
    InField (qpow_loop fuel res base e) ∧
    qpow_loop fuel res base e ≡ res * base ^ e [ZMOD MOD] ∧
    qpow_loop_inRange fuel res base e := by
  induction fuel with
  | zero =>
    intro res base e hres _ _ he
    have he0 : e = 0 := by simpa using he
    subst he0
    simp [qpow_loop, qpow_loop_inRange, hres, Int.ModEq.refl]
  | succ fuel ih =>
    intro res base e hres hb0 hb he
    by_cases hpos : (e : Int) > 0
    · have hsh : (e : Int) >>> (1 : Nat) = ((e / 2 : Nat) : Int) := by
        rw [Int.shiftRight_eq_div_pow]; norm_cast
      have he2 : e / 2 < 2 ^ fuel := by
        rw [pow_succ] at he; omega
      have hsq := sq_bound hb0 hb
      have hbase : (wrap64 (base * base)).tmod MOD = (base * base) % MOD :=
        mulmod_eq hsq.1 hsq.2
      have hbF := emod_inField (base * base)
      have hb2 : (base * base) % MOD ≤ 3037000499 := by
        have := hbF.2; simp only [modulus_eq] at this ⊢; omega
      have hmul := mul_bound hres.1 hres.2 hb0 hb
      have hresm : (wrap64 (res * base)).tmod MOD = (res * base) % MOD :=
        mulmod_eq hmul.1 hmul.2
      have hsqeq : ((base * base) % MOD) ^ (e / 2) ≡ base ^ (2 * (e / 2)) [ZMOD MOD] := by
        rw [pow_mul, pow_two]
        exact (Int.mod_modEq _ _).pow _
      simp only [qpow_loop, qpow_loop_inRange, hpos, if_true, hsh, hbase, hresm]
      by_cases hodd : (e : Int) % 2 = 1
      · simp only [hodd, if_true]
        obtain ⟨h1, h2, h3⟩ := ih ((res * base) % MOD) ((base * base) % MOD) (e / 2)
          (emod_inField _) hbF.1 hb2 he2
        refine ⟨h1, ?_, ⟨fun _ => ⟨by omega, hmul.2⟩, ⟨by omega, hsq.2⟩, h3⟩⟩
        have hexp : e = 2 * (e / 2) + 1 := by omega
        calc qpow_loop fuel ((res * base) % MOD) ((base * base) % MOD) ((e / 2 : Nat) : Int)
            ≡ (res * base) % MOD * ((base * base) % MOD) ^ (e / 2) [ZMOD MOD] := h2
          _ ≡ (res * base) * base ^ (2 * (e / 2)) [ZMOD MOD] :=
              (Int.mod_modEq _ _).mul hsqeq
          _ = res * base ^ e := by
              conv_rhs => rw [hexp]
              ring
      · simp only [hodd, if_false]
        obtain ⟨h1, h2, h3⟩ := ih res ((base * base) % MOD) (e / 2)
          hres hbF.1 hb2 he2
        refine ⟨h1, ?_, ⟨fun h => h.elim, ⟨by omega, hsq.2⟩, h3⟩⟩
        have hexp : e = 2 * (e / 2) := by omega
        calc qpow_loop fuel res ((base * base) % MOD) ((e / 2 : Nat) : Int)
            ≡ res * ((base * base) % MOD) ^ (e / 2) [ZMOD MOD] := h2
          _ ≡ res * base ^ (2 * (e / 2)) [ZMOD MOD] := Int.ModEq.mul_left _ hsqeq
          _ = res * base ^ e := by rw [← hexp]
    · have he0 : e = 0 := by omega
      subst he0
      simp [qpow_loop, qpow_loop_inRange, hres, Int.ModEq.refl]

/-- The contract of `qpow` on every base whose products fit 63 bits. -/
theorem qpow_spec (base : Int) (e : Nat) (hb0 : 0 ≤ base) (hb : base ≤ 3037000499)
    (he : e < 2 ^ 63) :
    qpow base e = base ^ e % MOD ∧ InField (qpow base e) ∧ qpow_inRange base e := by
  have h64 : e < 2 ^ 64 := by omega
  obtain ⟨h1, h2, h3⟩ := qpow_loop_spec 64 1 base e ⟨by decide, by decide⟩ hb0 hb h64
  refine ⟨?_, h1, h3⟩
  have h4 : qpow_loop 64 1 base e % MOD = (1 * base ^ e) % MOD := h2
  rw [one_mul, Int.emod_eq_of_lt h1.1 h1.2] at h4
  exact h4


/-! ## Arrays -/

theorem length_store (a : List Int) (i : Nat) (v : Int) : (store a i v).length = a.length := by
  simp [store]

theorem load_store (a : List Int) (i j : Nat) (v : Int) :
    load (store a i v) j = if j = i ∧ i < a.length then v else load a j := by
  unfold load store
  simp only [List.getD_eq_getElem?_getD, List.getElem?_set]
  by_cases h : i = j
  · subst h
    by_cases h2 : i < a.length
    · simp [h2]
    · simp [h2, List.getElem?_eq_none (Nat.le_of_not_lt h2)]
  · have h3 : ¬ j = i := fun e => h e.symm
    simp [h, h3]

theorem load_store_of_lt {a : List Int} {i : Nat} (h : i < a.length) (j : Nat) (v : Int) :
    load (store a i v) j = if j = i then v else load a j := by
  rw [load_store]; simp [h]

theorem load_of_length_le {a : List Int} {i : Nat} (h : a.length ≤ i) : load a i = 0 := by
  unfold load
  simp [List.getD_eq_getElem?_getD, List.getElem?_eq_none h]

theorem load_map_range (f : Nat → Int) {n i : Nat} (h : i < n) :
    load ((List.range n).map f) i = f i := by
  unfold load
  simp [List.getD_eq_getElem?_getD, h]

theorem load_replicate (n i : Nat) : load (List.replicate n 0) i = 0 := by
  unfold load
  by_cases h : i < n
  · simp [List.getD_eq_getElem?_getD, h]
  · simp [List.getD_eq_getElem?_getD, h]

theorem list_ext_load {a b : List Int} (hl : a.length = b.length)
    (h : ∀ i, i < a.length → load a i = load b i) : a = b := by
  apply List.ext_getElem hl
  intro i h1 h2
  have := h i h1
  unfold load at this
  simpa [List.getD_eq_getElem?_getD, h1, h2] using this

theorem load_mem {a : List Int} {i : Nat} (h : i < a.length) : load a i ∈ a := by
  unfold load
  simp [List.getD_eq_getElem?_getD, h]

/-- Unrolling the last round of a counted loop. -/
theorem foldl_range_succ {β : Type} (f : β → Nat → β) (b : β) (n : Nat) :
    (List.range (n + 1)).foldl f b = f ((List.range n).foldl f b) n := by
  rw [List.range_succ, List.foldl_append]; rfl

/-! ## The search for `limit` -/

theorem limit_loop_spec (s : Nat) (hs : s < 2 ^ 30) : ∀ (fuel j : Nat),
    j ≤ Nat.size s → Nat.size s - j < fuel →
    limit_loop fuel ((2 : Int) ^ j) (s : Int) = some ((2 : Int) ^ Nat.size s) := by
  have hk : Nat.size s ≤ 30 := Nat.size_le.mpr hs
  intro fuel
  induction fuel with
  | zero => intro j _ h; omega
  | succ fuel ih =>
    intro j hj hf
    unfold limit_loop
    by_cases hlt : j < Nat.size s
    · have h2 : 2 ^ j ≤ s := Nat.lt_size.mp hlt
      have h3 : ((2 : Int) ^ j) ≤ (s : Int) := by exact_mod_cast h2
      have h4 : (2 : Int) ^ (j + 1) < 2 ^ 31 :=
        pow_lt_pow_right₀ (by norm_num) (by omega)
      have h5 : wrap32 ((2 : Int) ^ j * 2) = (2 : Int) ^ (j + 1) := by
        rw [← pow_succ]
        exact wrap32_of_lt (by positivity) h4
      rw [if_pos h3, h5]
      exact ih (j + 1) (by omega) (by omega)
    · have hje : j = Nat.size s := by omega
      have h2 : s < 2 ^ j := Nat.size_le.mp (by omega)
      have h3 : ¬ ((2 : Int) ^ j) ≤ (s : Int) := by
        have : (s : Int) < (2 : Int) ^ j := by exact_mod_cast h2
        omega
      rw [if_neg h3, hje]

/-- The search returns the smallest power of two above `degA + degB`. -/
theorem limit_search (s : Nat) (hs : s < 2 ^ 30) :
    limit_loop 64 1 (wrap32 (s : Int)) = some ((2 : Int) ^ Nat.size s) := by
  have hk : Nat.size s ≤ 30 := Nat.size_le.mpr hs
  have h1 : wrap32 (s : Int) = (s : Int) := by
    apply wrap32_of_lt (by positivity)
    have : (s : Int) < 2 ^ 30 := by exact_mod_cast hs
    omega
  rw [h1]
  have := limit_loop_spec s hs 64 0 (by omega) (by omega)
  simpa using this

/-! ## Bit reversal -/

theorem bitrev_succ (k i : Nat) : bitrev (k + 1) i = (i % 2) * 2 ^ k + bitrev k (i / 2) := by
  unfold bitrev
  rw [Finset.sum_range_succ']
  rw [add_comm]
  congr 1
  · simp
  · apply Finset.sum_congr rfl
    intro b hb
    have hb2 : b < k := Finset.mem_range.mp hb
    have h1 : i / 2 ^ (b + 1) = i / 2 / 2 ^ b := by
      rw [pow_succ', Nat.div_div_eq_div_mul]
    have h2 : k + 1 - 1 - (b + 1) = k - 1 - b := by omega
    rw [h1, h2]

theorem bitrev_zero (i : Nat) : bitrev 0 i = 0 := by
  simp [bitrev]

theorem bitrev_lt (k : Nat) : ∀ i, bitrev k i < 2 ^ k := by
  induction k with
  | zero => intro i; simp [bitrev_zero]
  | succ k ih =>
    intro i
    rw [bitrev_succ, pow_succ]
    have h1 := ih (i / 2)
    have h2 : i % 2 < 2 := Nat.mod_lt _ (by norm_num)
    have h3 : i % 2 * 2 ^ k ≤ 1 * 2 ^ k := Nat.mul_le_mul_right _ (by omega)
    omega

theorem bitrev_top (k : Nat) : ∀ (c j : Nat), c < 2 → j < 2 ^ k →
    bitrev (k + 1) (c * 2 ^ k + j) = 2 * bitrev k j + c := by
  induction k with
  | zero =>
    intro c j hc hj
    have hj0 : j = 0 := by simpa using hj
    subst hj0
    rw [bitrev_succ]
    simp [bitrev_zero, Nat.mod_eq_of_lt hc]
  | succ k ih =>
    intro c j hc hj
    rw [bitrev_succ (k + 1)]
    have h0 : c * 2 ^ (k + 1) = 2 * (c * 2 ^ k) := by ring
    have h1 : (c * 2 ^ (k + 1) + j) % 2 = j % 2 := by
      rw [h0]; omega
    have h2 : (c * 2 ^ (k + 1) + j) / 2 = c * 2 ^ k + j / 2 := by
      rw [h0]; omega
    have h3 : j / 2 < 2 ^ k := by
      rw [pow_succ] at hj; omega
    rw [h1, h2, ih c (j / 2) hc h3, bitrev_succ k j]
    rw [pow_succ]
    ring

theorem bitrev_double (k j : Nat) (hj : j < 2 ^ k) : bitrev (k + 1) j = 2 * bitrev k j := by
  have := bitrev_top k 0 j (by norm_num) hj
  simpa using this

theorem bitrev_invol (k : Nat) : ∀ i, i < 2 ^ k → bitrev k (bitrev k i) = i := by
  induction k with
  | zero =>
    intro i hi
    have : i = 0 := by simpa using hi
    simp [bitrev_zero, this]
  | succ k ih =>
    intro i hi
    have h3 : i / 2 < 2 ^ k := by
      rw [pow_succ] at hi; omega
    rw [bitrev_succ k i, bitrev_top k (i % 2) _ (Nat.mod_lt _ (by norm_num)) (bitrev_lt k _),
      ih _ h3]
    omega

/-! ## `get_rev` on a buffer whose first entry reads zero -/

theorem bit_len_loop_spec (k : Nat) (hk : k ≤ 30) : ∀ (fuel b : Nat),
    b ≤ k → k - b ≤ fuel → bit_len_loop fuel b (((2 ^ k : Nat) : Int)) = k := by
  intro fuel
  induction fuel with
  | zero => intro b hb hf; simp only [bit_len_loop]; omega
  | succ fuel ih =>
    intro b hb hf
    unfold bit_len_loop
    have h1 : wrap32 ((2 : Int) ^ b) = (2 : Int) ^ b := by
      apply wrap32_of_lt (by positivity)
      exact pow_lt_pow_right₀ (by norm_num) (by omega)
    rw [h1]
    by_cases hlt : b < k
    · have h2 : (2 : Int) ^ b < (((2 ^ k : Nat)) : Int) := by
        push_cast
        exact pow_lt_pow_right₀ (by norm_num) hlt
      rw [if_pos h2]
      exact ih (b + 1) (by omega) (by omega)
    · have hbk : b = k := by omega
      subst hbk
      have h2 : ¬ (2 : Int) ^ b < (((2 ^ b : Nat)) : Int) := by
        push_cast; exact lt_irrefl _
      rw [if_neg h2]

theorem bitrev_of_zero (k : Nat) : bitrev k 0 = 0 := by
  simp [bitrev]

theorem int_lor_natCast (m n : Nat) : Int.lor (m : Int) (n : Int) = ((m ||| n : Nat) : Int) := rfl

/-- The value the table loop stores at `i`, when the entry it reads is the
reversal of `i / 2`. -/
theorem get_rev_value (k i : Nat) (hk : k + 1 ≤ 30) (hi : i < 2 ^ (k + 1)) :
    Int.lor (((bitrev (k + 1) (i / 2) : Nat) : Int) >>> (1 : Nat))
      (wrap32 (((i % 2 : Nat) : Int) * 2 ^ (k + 1 - 1))) = ((bitrev (k + 1) i : Nat) : Int) := by
  have h3 : i / 2 < 2 ^ k := by
    rw [pow_succ] at hi; omega
  have hb : i % 2 < 2 := Nat.mod_lt _ (by norm_num)
  rw [bitrev_double k _ h3, Int.shiftRight_eq_div_pow]
  have h4 : ((2 * bitrev k (i / 2) : Nat) : Int) / ((2 ^ 1 : Nat) : Int) =
      ((bitrev k (i / 2) : Nat) : Int) := by
    norm_cast
    omega
  have h5 : wrap32 (((i % 2 : Nat) : Int) * 2 ^ (k + 1 - 1)) = ((2 ^ k * (i % 2) : Nat) : Int) := by
    have h6 : ((i % 2 : Nat) : Int) * 2 ^ (k + 1 - 1) = ((2 ^ k * (i % 2) : Nat) : Int) := by
      simp only [Nat.add_sub_cancel]
      push_cast
      ring
    rw [h6]
    apply wrap32_of_lt (by positivity)
    have h7 : 2 ^ k * (i % 2) ≤ 2 ^ k * 1 := Nat.mul_le_mul_left _ (by omega)
    have h8 : (2 : Nat) ^ k < 2 ^ 31 := pow_lt_pow_right₀ (by norm_num) (by omega)
    have h9 : 2 ^ k * (i % 2) < 2 ^ 31 := by omega
    exact_mod_cast h9
  rw [h4, h5, int_lor_natCast, Nat.lor_comm, ← Nat.mul_add_lt_is_or (bitrev_lt k _), bitrev_succ]
  congr 1
  ring

theorem get_rev_loop (k : Nat) (hk : k ≤ 30) (r0 : List Int) (hlen : r0.length = 2 ^ k)
    (h0 : load r0 0 = 0) : ∀ c, c ≤ 2 ^ k →
    ((List.range c).foldl (get_rev_body k) r0).length = 2 ^ k ∧
    load ((List.range c).foldl (get_rev_body k) r0) 0 = 0 ∧
    ∀ j, j < c → load ((List.range c).foldl (get_rev_body k) r0) j = ((bitrev k j : Nat) : Int) := by
  intro c
  induction c with
  | zero =>
    intro _
    exact ⟨hlen, h0, fun j hj => absurd hj (Nat.not_lt_zero _)⟩
  | succ c ih =>
    intro hc
    obtain ⟨hl, hz, hj⟩ := ih (by omega)
    rw [foldl_range_succ]
    generalize (List.range c).foldl (get_rev_body k) r0 = r at hl hz hj
    have hcl : c < r.length := by omega
    have hval : Int.lor (load r (c / 2) >>> (1 : Nat))
        (wrap32 (((c % 2 : Nat) : Int) * 2 ^ (k - 1))) = ((bitrev k c : Nat) : Int) := by
      by_cases hc0 : c = 0
      · subst hc0
        simp only [Nat.zero_div, hz, bitrev_of_zero]
        simp [wrap32, Int.lor]
      · obtain ⟨k1, rfl⟩ : ∃ k1, k = k1 + 1 := by
          cases k with
          | zero => simp at hc; omega
          | succ k1 => exact ⟨k1, rfl⟩
        rw [hj (c / 2) (by omega)]
        exact get_rev_value k1 c hk (by omega)
    unfold get_rev_body
    rw [hval]
    refine ⟨by rw [length_store, hl], ?_, ?_⟩
    · rw [load_store_of_lt hcl]
      by_cases hc0 : 0 = c
      · subst hc0; simp [bitrev_of_zero]
      · rw [if_neg hc0]; exact hz
    · intro j hjc
      rw [load_store_of_lt hcl]
      by_cases hjeq : j = c
      · subst hjeq; simp
      · rw [if_neg hjeq]; exact hj j (by omega)

/-- On a buffer of `2 ^ k` entries that reads zero at index 0, `get_rev` produces
the bit-reversal table. -/
theorem get_rev_spec (k : Nat) (hk : k ≤ 30) (r0 : List Int) (hlen : r0.length = 2 ^ k)
    (h0 : load r0 0 = 0) : get_rev (2 ^ k) r0 = rev_table k := by
  unfold get_rev
  rw [bit_len_loop_spec k hk 32 0 (by omega) (by omega)]
  obtain ⟨hl, _, hj⟩ := get_rev_loop k hk r0 hlen h0 (2 ^ k) (le_refl _)
  apply list_ext_load
  · rw [hl]; simp [rev_table]
  · intro i hi
    rw [hl] at hi
    rw [hj i hi]
    unfold rev_table
    rw [load_map_range _ hi]

theorem length_rev_table (k : Nat) : (rev_table k).length = 2 ^ k := by
  simp [rev_table]

theorem load_rev_table (k : Nat) {i : Nat} (hi : i < 2 ^ k) :
    load (rev_table k) i = ((bitrev k i : Nat) : Int) := by
  unfold rev_table
  rw [load_map_range _ hi]

/-! ## The permutation loop of `ntt` -/

theorem ntt_swap_loop (n : Nat) (ρ : Nat → Nat) (r a : List Int)
    (hr : ∀ i, i < n → load r i = ((ρ i : Nat) : Int)) (hρ : ∀ i, i < n → ρ i < n)
    (hinv : ∀ i, i < n → ρ (ρ i) = i) (hlen : a.length = n) : ∀ c, c ≤ n →
    ((List.range c).foldl (ntt_swap r) a).length = n ∧
    ∀ j, j < n → load ((List.range c).foldl (ntt_swap r) a) j =
      if j < c ∨ ρ j < c then load a (ρ j) else load a j := by
  intro c
  induction c with
  | zero =>
    intro _
    refine ⟨hlen, fun j _ => ?_⟩
    simp
  | succ c ih =>
    intro hc
    have hcn : c < n := by omega
    obtain ⟨hl, hj⟩ := ih (by omega)
    rw [foldl_range_succ]
    generalize (List.range c).foldl (ntt_swap r) a = b at hl hj
    have hcc := hinv c hcn
    have hρc := hρ c hcn
    have hbc : load b c = if ρ c < c then load a (ρ c) else load a c := by
      rw [hj c hcn]; simp
    unfold ntt_swap
    rw [hr c hcn]
    by_cases hsw : c < ρ c
    · have hsw2 : ((c : Nat) : Int) < ((ρ c : Nat) : Int) := by exact_mod_cast hsw
      simp only [hsw2, if_true, Int.toNat_ofNat]
      have hbc2 : load b c = load a c := by
        rw [hbc, if_neg (by omega)]
      have hbρ : load b (ρ c) = load a (ρ c) := by
        rw [hj (ρ c) hρc, hcc, if_neg (by omega)]
      refine ⟨by rw [length_store, length_store, hl], fun j hjn => ?_⟩
      have hjj := hinv j hjn
      rw [load_store_of_lt (by rw [length_store, hl]; exact hρc),
        load_store_of_lt (by rw [hl]; exact hcn), hbc2, hbρ]
      by_cases h1 : j = ρ c
      · rw [if_pos h1]
        have h2 : ρ j = c := by rw [h1, hcc]
        rw [if_pos (Or.inr (by omega)), h2]
      · rw [if_neg h1]
        by_cases h3 : j = c
        · rw [if_pos h3, if_pos (Or.inl (by omega)), h3]
        · rw [if_neg h3, hj j hjn]
          have h4 : ρ j ≠ c := fun h => h1 (by rw [← hjj, h])
          have h5 : (j < c ∨ ρ j < c) ↔ (j < c + 1 ∨ ρ j < c + 1) := by omega
          simp only [h5]
    · have hsw2 : ¬ ((c : Nat) : Int) < ((ρ c : Nat) : Int) := by
        intro h; exact hsw (by exact_mod_cast h)
      simp only [hsw2, if_false]
      refine ⟨hl, fun j hjn => ?_⟩
      have hjj := hinv j hjn
      rw [hj j hjn]
      by_cases h3 : j = c
      · subst h3
        by_cases h6 : ρ j = j
        · simp [h6]
        · have h7 : ρ j < j := by omega
          simp [h7]
      · by_cases h4 : ρ j = c
        · have h8 : j = ρ c := by rw [← hjj, h4]
          have h9 : j < c := by omega
          simp [h9, Nat.lt_succ_of_lt h9]
        · have h5 : (j < c ∨ ρ j < c) ↔ (j < c + 1 ∨ ρ j < c + 1) := by omega
          simp only [h5]

/-- With an involutive table the permutation loop leaves `a[i] = a0[r[i]]`. -/
theorem ntt_swap_spec (n : Nat) (ρ : Nat → Nat) (r a : List Int)
    (hr : ∀ i, i < n → load r i = ((ρ i : Nat) : Int)) (hρ : ∀ i, i < n → ρ i < n)
    (hinv : ∀ i, i < n → ρ (ρ i) = i) (hlen : a.length = n) :
    ((List.range n).foldl (ntt_swap r) a).length = n ∧
    ∀ j, j < n → load ((List.range n).foldl (ntt_swap r) a) j = load a (ρ j) := by
  obtain ⟨h1, h2⟩ := ntt_swap_loop n ρ r a hr hρ hinv hlen n (le_refl _)
  refine ⟨h1, fun j hj => ?_⟩
  rw [h2 j hj, if_pos (Or.inl hj)]

/-! ## Residues of the machine operations -/

theorem cast_emod (x : Int) : (((x % MOD : Int)) : F) = (x : F) := by
  have h := ZMod.intCast_mod x 998244353
  simpa [NTT.MOD] using h

theorem eq_of_cast_eq {x y : Int} (hx : InField x) (hy : InField y)
    (h : (x : F) = (y : F)) : x = y := by
  have h1 : x ≡ y [ZMOD ((998244353 : Nat) : Int)] :=
    (ZMod.intCast_eq_intCast_iff x y 998244353).mp h
  have h2 : x % 998244353 = y % 998244353 := by simpa [Int.ModEq] using h1
  unfold InField at hx hy
  simp only [modulus_eq] at hx hy
  omega

theorem inField_le {x : Int} (h : InField x) : x ≤ 3037000499 := by
  unfold InField at h
  simp only [modulus_eq] at h
  omega

/-- The C expression `(x * y) % MOD` on field elements. -/
theorem mulmod_field {x y : Int} (hx : InField x) (hy : InField y) :
    InField ((wrap64 (x * y)).tmod MOD) ∧
    (((wrap64 (x * y)).tmod MOD : Int) : F) = (x : F) * (y : F) := by
  have hb := mul_bound hx.1 hx.2 hy.1 (inField_le hy)
  rw [mulmod_eq hb.1 hb.2]
  exact ⟨emod_inField _, by rw [cast_emod]; push_cast; rfl⟩

/-- The C expression `(x + y) % MOD` on field elements. -/
theorem addmod_field {x y : Int} (hx : InField x) (hy : InField y) :
    InField ((wrap64 (x + y)).tmod MOD) ∧
    (((wrap64 (x + y)).tmod MOD : Int) : F) = (x : F) + (y : F) := by
  unfold InField at hx hy
  simp only [modulus_eq] at hx hy
  have h1 : wrap64 (x + y) = x + y := wrap64_of_inRange ⟨by omega, by omega⟩
  rw [h1, Int.tmod_eq_emod (by omega) (by decide)]
  exact ⟨emod_inField _, by rw [cast_emod]; push_cast; rfl⟩

/-- The C expression `(x - y + MOD) % MOD` on field elements. -/
theorem submod_field {x y : Int} (hx : InField x) (hy : InField y) :
    InField ((wrap64 (wrap64 (x - y) + MOD)).tmod MOD) ∧
    (((wrap64 (wrap64 (x - y) + MOD)).tmod MOD : Int) : F) = (x : F) - (y : F) := by
  unfold InField at hx hy
  simp only [modulus_eq] at hx hy
  have h1 : wrap64 (x - y) = x - y := wrap64_of_inRange ⟨by omega, by omega⟩
  have h2 : wrap64 (x - y + MOD) = x - y + MOD :=
    wrap64_of_inRange ⟨by simp only [modulus_eq]; omega, by simp only [modulus_eq]; omega⟩
  rw [h1, h2, Int.tmod_eq_emod (by simp only [modulus_eq]; omega) (by decide)]
  refine ⟨emod_inField _, ?_⟩
  rw [cast_emod]
  have h3 : ((MOD : Int) : F) = 0 := by
    have := ZMod.natCast_self 998244353
    simpa [NTT.MOD] using this
  push_cast
  rw [h3, add_zero]

/-! ## One block of butterflies -/

theorem ntt_butterfly_loop (wn : Int) (mid j : Nat) (a : List Int) (hwn : InField wn)
    (hlen : j + 2 * mid ≤ a.length)
    (hin : ∀ i, j ≤ i → i < j + 2 * mid → InField (load a i)) : ∀ c, c ≤ mid →
    ((List.range c).foldl (ntt_butterfly wn mid j) (a, 1)).1.length = a.length ∧
    InField ((List.range c).foldl (ntt_butterfly wn mid j) (a, 1)).2 ∧
    ((((List.range c).foldl (ntt_butterfly wn mid j) (a, 1)).2 : Int) : F) = (wn : F) ^ c ∧
    (∀ p, p < c →
      InField (load ((List.range c).foldl (ntt_butterfly wn mid j) (a, 1)).1 (j + p)) ∧
      InField (load ((List.range c).foldl (ntt_butterfly wn mid j) (a, 1)).1 (j + p + mid)) ∧
      ((load ((List.range c).foldl (ntt_butterfly wn mid j) (a, 1)).1 (j + p) : Int) : F) =
        (load a (j + p) : F) + (wn : F) ^ p * (load a (j + p + mid) : F) ∧
      ((load ((List.range c).foldl (ntt_butterfly wn mid j) (a, 1)).1 (j + p + mid) : Int) : F) =
        (load a (j + p) : F) - (wn : F) ^ p * (load a (j + p + mid) : F)) ∧
    (∀ i, (∀ p, p < c → i ≠ j + p ∧ i ≠ j + p + mid) →
      load ((List.range c).foldl (ntt_butterfly wn mid j) (a, 1)).1 i = load a i) := by
  intro c
  induction c with
  | zero =>
    intro _
    have h1 : InField 1 := ⟨by decide, by decide⟩
    refine ⟨rfl, h1, by simp, fun p hp => absurd hp (Nat.not_lt_zero _), fun i _ => rfl⟩
  | succ c ih =>
    intro hc
    obtain ⟨hl, hw, hwc, hp, hfr⟩ := ih (by omega)
    rw [foldl_range_succ]
    generalize (List.range c).foldl (ntt_butterfly wn mid j) (a, 1) = s at hl hw hwc hp hfr
    obtain ⟨b, w⟩ := s
    simp only at hl hw hwc hp hfr
    have hx : load b (j + c) = load a (j + c) :=
      hfr (j + c) (fun p hpc => ⟨by omega, by omega⟩)
    have hy : load b (j + c + mid) = load a (j + c + mid) :=
      hfr (j + c + mid) (fun p hpc => ⟨by omega, by omega⟩)
    have hxF : InField (load a (j + c)) := hin _ (by omega) (by omega)
    have hyF : InField (load a (j + c + mid)) := hin _ (by omega) (by omega)
    have hm := mulmod_field hw hyF
    have hadd := addmod_field hxF hm.1
    have hsub := submod_field hxF hm.1
    have hwnext := mulmod_field hw hwn
    unfold ntt_butterfly
    simp only [hx, hy]
    have hl1 : j + c < b.length := by omega
    have hl2 : j + c + mid < (store b (j + c)
        ((wrap64 (load a (j + c) + (wrap64 (w * load a (j + c + mid))).tmod MOD)).tmod MOD)).length := by
      rw [length_store]; omega
    refine ⟨by rw [length_store, length_store, hl], hwnext.1, ?_, ?_, ?_⟩
    · rw [hwnext.2, hwc, pow_succ]
    · intro p hpc
      rw [load_store_of_lt hl2, load_store_of_lt hl1, load_store_of_lt hl2, load_store_of_lt hl1]
      by_cases hpe : p = c
      · subst hpe
        rw [if_neg (by omega), if_pos rfl, if_pos rfl]
        refine ⟨hadd.1, hsub.1, ?_, ?_⟩
        · rw [hadd.2, hm.2, hwc]
        · rw [hsub.2, hm.2, hwc]
      · rw [if_neg (by omega), if_neg (by omega), if_neg (by omega), if_neg (by omega)]
        exact hp p (by omega)
    · intro i hi
      have h1 := hi c (by omega)
      rw [load_store_of_lt hl2, load_store_of_lt hl1, if_neg h1.2, if_neg h1.1]
      exact hfr i (fun p hpc => hi p (by omega))

theorem ntt_block_spec (wn : Int) (mid j : Nat) (a : List Int) (hwn : InField wn)
    (hlen : j + 2 * mid ≤ a.length)
    (hin : ∀ i, j ≤ i → i < j + 2 * mid → InField (load a i)) :
    (ntt_block wn mid a j).length = a.length ∧
    (∀ p, p < mid →
      InField (load (ntt_block wn mid a j) (j + p)) ∧
      InField (load (ntt_block wn mid a j) (j + p + mid)) ∧
      ((load (ntt_block wn mid a j) (j + p) : Int) : F) =
        (load a (j + p) : F) + (wn : F) ^ p * (load a (j + p + mid) : F) ∧
      ((load (ntt_block wn mid a j) (j + p + mid) : Int) : F) =
        (load a (j + p) : F) - (wn : F) ^ p * (load a (j + p + mid) : F)) ∧
    (∀ i, i < j ∨ j + 2 * mid ≤ i → load (ntt_block wn mid a j) i = load a i) := by
  obtain ⟨h1, _, _, h4, h5⟩ := ntt_butterfly_loop wn mid j a hwn hlen hin mid (le_refl _)
  refine ⟨h1, h4, fun i hi => h5 i (fun p hp => ?_)⟩
  constructor <;> omega

/-! ## One pass over all blocks -/

theorem ntt_blocks_loop (wn : Int) (mid nb : Nat) (hmid : 0 < mid) (hwn : InField wn) :
    ∀ (fuel b : Nat) (a : List Int), b ≤ nb → nb - b ≤ fuel →
    a.length = nb * (2 * mid) →
    (∀ i, b * (2 * mid) ≤ i → i < nb * (2 * mid) → InField (load a i)) →
    (ntt_blocks wn mid (nb * (2 * mid)) fuel (b * (2 * mid)) a).length = a.length ∧
    (∀ i, i < b * (2 * mid) →
      load (ntt_blocks wn mid (nb * (2 * mid)) fuel (b * (2 * mid)) a) i = load a i) ∧
    (∀ b1, b ≤ b1 → b1 < nb → ∀ p, p < mid →
      InField (load (ntt_blocks wn mid (nb * (2 * mid)) fuel (b * (2 * mid)) a)
        (b1 * (2 * mid) + p)) ∧
      InField (load (ntt_blocks wn mid (nb * (2 * mid)) fuel (b * (2 * mid)) a)
        (b1 * (2 * mid) + p + mid)) ∧
      ((load (ntt_blocks wn mid (nb * (2 * mid)) fuel (b * (2 * mid)) a)
        (b1 * (2 * mid) + p) : Int) : F) =
        (load a (b1 * (2 * mid) + p) : F) +
          (wn : F) ^ p * (load a (b1 * (2 * mid) + p + mid) : F) ∧
      ((load (ntt_blocks wn mid (nb * (2 * mid)) fuel (b * (2 * mid)) a)
        (b1 * (2 * mid) + p + mid) : Int) : F) =
        (load a (b1 * (2 * mid) + p) : F) -
          (wn : F) ^ p * (load a (b1 * (2 * mid) + p + mid) : F)) := by
  intro fuel
  induction fuel with
  | zero =>
    intro b a hb hf _ _
    have hbe : b = nb := by omega
    subst hbe
    refine ⟨rfl, fun i _ => rfl, fun b1 h1 h2 => ?_⟩
    omega
  | succ fuel ih =>
    intro b a hb hf hlen hin
    unfold ntt_blocks
    by_cases hlt : b < nb
    · have hjl : b * (2 * mid) < nb * (2 * mid) :=
        Nat.mul_lt_mul_of_pos_right hlt (by omega)
      have hnext : (b + 1) * (2 * mid) = b * (2 * mid) + 2 * mid := by ring
      have hnb : (b + 1) * (2 * mid) ≤ nb * (2 * mid) := Nat.mul_le_mul_right _ hlt
      have hblk := ntt_block_spec wn mid (b * (2 * mid)) a hwn (by omega)
        (fun i h1 h2 => hin i h1 (by omega))
      obtain ⟨hl1, hv1, hfr1⟩ := hblk
      rw [if_pos hjl, ← hnext]
      generalize ntt_block wn mid a (b * (2 * mid)) = a1 at hl1 hv1 hfr1
      obtain ⟨hl2, hfr2, hv2⟩ := ih (b + 1) a1 hlt (by omega) (by rw [hl1, hlen])
        (fun i h1 h2 => by
          rw [hfr1 i (Or.inr (by omega))]
          exact hin i (by omega) h2)
      refine ⟨by rw [hl2, hl1], fun i hi => ?_, fun b1 hb1 hb1n p hp => ?_⟩
      · rw [hfr2 i (by omega), hfr1 i (Or.inl hi)]
      · by_cases hbe : b1 = b
        · subst hbe
          rw [hfr2 _ (by omega), hfr2 _ (by omega)]
          exact hv1 p hp
        · have hb2 : b + 1 ≤ b1 := by omega
          have hge : (b + 1) * (2 * mid) ≤ b1 * (2 * mid) := Nat.mul_le_mul_right _ hb2
          have := hv2 b1 hb2 hb1n p hp
          rw [hfr1 _ (Or.inr (by omega)), hfr1 _ (Or.inr (by omega))] at this
          exact this
    · have hbe : b = nb := by omega
      subst hbe
      rw [if_neg (lt_irrefl _)]
      refine ⟨rfl, fun i _ => rfl, fun b1 h1 h2 => ?_⟩
      omega

theorem ntt_pass_spec (wn : Int) (mid nb : Nat) (hmid : 0 < mid) (hwn : InField wn)
    (a : List Int) (hlen : a.length = nb * (2 * mid))
    (hin : ∀ i, i < nb * (2 * mid) → InField (load a i)) :
    (ntt_blocks wn mid (nb * (2 * mid)) (nb * (2 * mid)) 0 a).length = a.length ∧
    (∀ b1, b1 < nb → ∀ p, p < mid →
      InField (load (ntt_blocks wn mid (nb * (2 * mid)) (nb * (2 * mid)) 0 a)
        (b1 * (2 * mid) + p)) ∧
      InField (load (ntt_blocks wn mid (nb * (2 * mid)) (nb * (2 * mid)) 0 a)
        (b1 * (2 * mid) + p + mid)) ∧
      ((load (ntt_blocks wn mid (nb * (2 * mid)) (nb * (2 * mid)) 0 a)
        (b1 * (2 * mid) + p) : Int) : F) =
        (load a (b1 * (2 * mid) + p) : F) +
          (wn : F) ^ p * (load a (b1 * (2 * mid) + p + mid) : F) ∧
      ((load (ntt_blocks wn mid (nb * (2 * mid)) (nb * (2 * mid)) 0 a)
        (b1 * (2 * mid) + p + mid) : Int) : F) =
        (load a (b1 * (2 * mid) + p) : F) -
          (wn : F) ^ p * (load a (b1 * (2 * mid) + p + mid) : F)) := by
  have hfuel : nb - 0 ≤ nb * (2 * mid) := by
    have : nb * 1 ≤ nb * (2 * mid) := Nat.mul_le_mul_left _ (by omega)
    omega
  have h := ntt_blocks_loop wn mid nb hmid hwn (nb * (2 * mid)) 0 a (Nat.zero_le _) hfuel hlen
    (fun i _ h2 => hin i h2)
  rw [Nat.zero_mul] at h
  exact ⟨h.1, fun b1 hb1 => h.2.2 b1 (Nat.zero_le _) hb1⟩

/-! ## The Cooley-Tukey recurrence for the transform -/

theorem sum_range_even_odd (g : Nat → F) (m : Nat) :
    ∑ q in Finset.range (2 * m), g q = ∑ q in Finset.range m, (g (2 * q) + g (2 * q + 1)) := by
  induction m with
  | zero => simp
  | succ m ih =>
    have h : 2 * (m + 1) = 2 * m + 1 + 1 := by ring
    rw [h, Finset.sum_range_succ, Finset.sum_range_succ, Finset.sum_range_succ, ih]
    ring

theorem dft_split_lo (w : F) (m : Nat) (f : Nat → F) (p : Nat) :
    dft w (2 * m) f p =
      dft (w ^ 2) m (fun q => f (2 * q)) p + w ^ p * dft (w ^ 2) m (fun q => f (2 * q + 1)) p := by
  unfold dft
  rw [sum_range_even_odd, Finset.mul_sum, ← Finset.sum_add_distrib]
  apply Finset.sum_congr rfl
  intro q _
  have h1 : w ^ (p * (2 * q)) = (w ^ 2) ^ (p * q) := by
    rw [← pow_mul]; congr 1; ring
  have h2 : w ^ (p * (2 * q + 1)) = w ^ p * (w ^ 2) ^ (p * q) := by
    rw [← pow_mul, ← pow_add]; congr 1; ring
  rw [h1, h2]
  ring

theorem dft_split_hi (w : F) (m : Nat) (f : Nat → F) (p : Nat) (hw : w ^ m = -1) :
    dft w (2 * m) f (p + m) =
      dft (w ^ 2) m (fun q => f (2 * q)) p - w ^ p * dft (w ^ 2) m (fun q => f (2 * q + 1)) p := by
  unfold dft
  rw [sum_range_even_odd, Finset.mul_sum, ← Finset.sum_sub_distrib]
  apply Finset.sum_congr rfl
  intro q _
  have h0 : (w ^ m) ^ (2 * q) = 1 := by
    rw [hw, pow_mul]; simp
  have h1 : w ^ ((p + m) * (2 * q)) = (w ^ 2) ^ (p * q) := by
    have : (p + m) * (2 * q) = 2 * (p * q) + m * (2 * q) := by ring
    rw [this, pow_add, pow_mul w m, h0, mul_one, pow_mul]
  have h2 : w ^ ((p + m) * (2 * q + 1)) = -(w ^ p * (w ^ 2) ^ (p * q)) := by
    have : (p + m) * (2 * q + 1) = (p + m) * (2 * q) + p + m := by ring
    rw [this, pow_add, pow_add, h1, hw]
    ring
  rw [h1, h2]
  ring

/-! ## One pass moves the array one stage forward -/

theorem stage_step (Ω : F) (f0 : Nat → F) (n s t : Nat) (a : List Int) (wn : Int)
    (hst : Stage Ω f0 n (s + 1) t a) (hwn : InField wn) (hwF : (wn : F) = Ω ^ (2 ^ s))
    (hroot : Ω ^ (2 ^ (s + t)) = -1) :
    Stage Ω f0 n s (t + 1) (ntt_blocks wn (2 ^ t) n n 0 a) := by
  obtain ⟨hn, hlen, hin, hval⟩ := hst
  have hn2 : n = 2 ^ s * (2 * 2 ^ t) := by
    rw [hn]; ring
  have hpos : 0 < 2 ^ t := by positivity
  have hpass := ntt_pass_spec wn (2 ^ t) (2 ^ s) hpos hwn a (by rw [hlen, hn2])
    (fun i hi => hin i (by rw [hn2]; exact hi))
  rw [← hn2] at hpass
  obtain ⟨hl2, hv2⟩ := hpass
  generalize ntt_blocks wn (2 ^ t) n n 0 a = a2 at hl2 hv2
  have hw2 : (Ω ^ (2 ^ s)) ^ 2 = Ω ^ (2 ^ (s + 1)) := by
    rw [← pow_mul, pow_succ]
  have hwm : (Ω ^ (2 ^ s)) ^ (2 ^ t) = -1 := by
    rw [← pow_mul, ← pow_add]; exact hroot
  have hbr0 : ∀ b, bitrev (s + 1) (2 * b) = bitrev s b := by
    intro b
    rw [bitrev_succ]
    have h1 : 2 * b % 2 = 0 := by omega
    have h2 : 2 * b / 2 = b := by omega
    rw [h1, h2]; simp
  have hbr1 : ∀ b, bitrev (s + 1) (2 * b + 1) = 2 ^ s + bitrev s b := by
    intro b
    rw [bitrev_succ]
    have h1 : (2 * b + 1) % 2 = 1 := by omega
    have h2 : (2 * b + 1) / 2 = b := by omega
    rw [h1, h2]; simp
  have hlo : ∀ b, b < 2 ^ s → ∀ p, p < 2 ^ t →
      ((load a (b * (2 * 2 ^ t) + p) : Int) : F) =
        dft ((Ω ^ (2 ^ s)) ^ 2) (2 ^ t) (fun q => f0 (bitrev s b + (2 * q) * 2 ^ s)) p := by
    intro b hb p hp
    have h1 := hval (2 * b) (by rw [pow_succ]; omega) p hp
    have h2 : 2 * b * 2 ^ t + p = b * (2 * 2 ^ t) + p := by ring
    rw [h2, hbr0] at h1
    rw [h1, hw2]
    congr 1
    funext q
    congr 1
    ring
  have hhi : ∀ b, b < 2 ^ s → ∀ p, p < 2 ^ t →
      ((load a (b * (2 * 2 ^ t) + p + 2 ^ t) : Int) : F) =
        dft ((Ω ^ (2 ^ s)) ^ 2) (2 ^ t) (fun q => f0 (bitrev s b + (2 * q + 1) * 2 ^ s)) p := by
    intro b hb p hp
    have h1 := hval (2 * b + 1) (by rw [pow_succ]; omega) p hp
    have h2 : (2 * b + 1) * 2 ^ t + p = b * (2 * 2 ^ t) + p + 2 ^ t := by ring
    rw [h2, hbr1] at h1
    rw [h1, hw2]
    congr 1
    funext q
    congr 1
    ring
  refine ⟨by rw [hn]; congr 1; omega, by rw [hl2, hlen], ?_, ?_⟩
  · intro i hi
    rw [hn2] at hi
    have hM : 0 < 2 * 2 ^ t := by omega
    have hb : i / (2 * 2 ^ t) < 2 ^ s := by
      rw [Nat.div_lt_iff_lt_mul hM]; exact hi
    have hdm : 2 * 2 ^ t * (i / (2 * 2 ^ t)) + i % (2 * 2 ^ t) = i := Nat.div_add_mod i _
    have hml : i % (2 * 2 ^ t) < 2 * 2 ^ t := Nat.mod_lt _ hM
    by_cases hp : i % (2 * 2 ^ t) < 2 ^ t
    · have := (hv2 _ hb _ hp).1
      have hi2 : i / (2 * 2 ^ t) * (2 * 2 ^ t) + i % (2 * 2 ^ t) = i := by
        rw [Nat.mul_comm]; exact hdm
      rw [hi2] at this
      exact this
    · have := (hv2 _ hb (i % (2 * 2 ^ t) - 2 ^ t) (by omega)).2.1
      have hi2 : i / (2 * 2 ^ t) * (2 * 2 ^ t) + (i % (2 * 2 ^ t) - 2 ^ t) + 2 ^ t = i := by
        rw [Nat.mul_comm]; omega
      rw [hi2] at this
      exact this
  · intro b hb p hp
    have h2t : (2 : Nat) ^ (t + 1) = 2 * 2 ^ t := by rw [pow_succ]; ring
    rw [h2t] at hp ⊢
    by_cases hplo : p < 2 ^ t
    · obtain ⟨_, _, h3, _⟩ := hv2 b hb p hplo
      rw [h3, hwF, hlo b hb p hplo, hhi b hb p hplo, dft_split_lo]
    · obtain ⟨_, _, _, h4⟩ := hv2 b hb (p - 2 ^ t) (by omega)
      have hidx : b * (2 * 2 ^ t) + p = b * (2 * 2 ^ t) + (p - 2 ^ t) + 2 ^ t := by omega
      have hpp : p = (p - 2 ^ t) + 2 ^ t := by omega
      rw [hidx, h4, hwF, hlo b hb _ (by omega), hhi b hb _ (by omega)]
      conv_rhs => rw [hpp]
      rw [dft_split_hi _ _ _ _ hwm]

/-! ## The roots of unity that `ntt` computes -/

theorem qpow_cast (base : Int) (e : Nat) (hb0 : 0 ≤ base) (hb : base ≤ 3037000499)
    (he : e < 2 ^ 63) : ((qpow base e : Int) : F) = (base : F) ^ e := by
  rw [(qpow_spec base e hb0 hb he).1, cast_emod]
  push_cast
  rfl

theorem cast_modulus_pred : (((998244352 : Int)) : F) = -1 := by
  rw [eq_neg_iff_add_eq_zero]
  have h : (((998244353 : Nat)) : F) = 0 := ZMod.natCast_self 998244353
  have h2 : (((998244352 : Int)) : F) + 1 = (((998244353 : Nat)) : F) := by
    push_cast
    norm_num
  rw [h2, h]

set_option maxRecDepth 100000 in
theorem qpow_G_half : qpow G 499122176 = 998244352 := by decide

set_option maxRecDepth 100000 in
theorem qpow_G_INV_half : qpow G_INV 499122176 = 998244352 := by decide

set_option maxRecDepth 100000 in
theorem qpow_two_full : qpow 2 998244352 = 1 := by decide

theorem gen_pow_half (type : Int) :
    (((if type = 1 then G else G_INV : Int)) : F) ^ 499122176 = -1 := by
  by_cases h : type = 1
  · rw [if_pos h]
    have h1 := qpow_cast G 499122176 (by decide) (by decide) (by norm_num)
    rw [← h1]
    have h2 : qpow G ((499122176 : Nat) : Int) = 998244352 := qpow_G_half
    rw [h2]; exact cast_modulus_pred
  · rw [if_neg h]
    have h1 := qpow_cast G_INV 499122176 (by decide) (by decide) (by norm_num)
    rw [← h1]
    have h2 : qpow G_INV ((499122176 : Nat) : Int) = 998244352 := qpow_G_INV_half
    rw [h2]; exact cast_modulus_pred

theorem modulus_pred_div (j : Nat) (hj : j ≤ 23) : 998244352 / 2 ^ j = 119 * 2 ^ (23 - j) := by
  have h1 : 998244352 = 119 * 2 ^ (23 - j) * 2 ^ j := by
    rw [mul_assoc, ← pow_add]
    have : 23 - j + j = 23 := by omega
    rw [this]
    norm_num
  conv_lhs => rw [h1]
  exact Nat.mul_div_cancel _ (by positivity)

/-- The root of order `2 ^ k` raised to `2 ^ s` is the root of order `2 ^ (k - s)`. -/
theorem root_pow (type : Int) (k s j : Nat) (hk : k ≤ 23) (hj : j + s = k) :
    root type k ^ (2 ^ s) = root type j := by
  unfold root
  have h : 23 - k + s = 23 - j := by omega
  rw [← pow_mul, modulus_pred_div k hk, modulus_pred_div j (by omega), mul_assoc, ← pow_add, h]

theorem root_half (type : Int) (k : Nat) (hk : k + 1 ≤ 23) :
    root type (k + 1) ^ (2 ^ k) = -1 := by
  rw [root_pow type (k + 1) k 1 hk (by omega)]
  unfold root
  exact gen_pow_half type

/-- The block root `wn` of the pass with half-width `2 ^ t`. -/
theorem wn_spec (type : Int) (t : Nat) :
    InField (qpow (if type = 1 then G else G_INV) ((MOD - 1) / ((2 * 2 ^ t : Nat) : Int))) ∧
    ((qpow (if type = 1 then G else G_INV) ((MOD - 1) / ((2 * 2 ^ t : Nat) : Int)) : Int) : F) =
      root type (t + 1) := by
  have he : (MOD - 1) / ((2 * 2 ^ t : Nat) : Int) = ((998244352 / 2 ^ (t + 1) : Nat) : Int) := by
    have : (MOD - 1 : Int) = ((998244352 : Nat) : Int) := by decide
    rw [this, pow_succ', ← Int.natCast_div]
  rw [he]
  have hlt : 998244352 / 2 ^ (t + 1) < 2 ^ 63 := by
    have := Nat.div_le_self 998244352 (2 ^ (t + 1))
    omega
  have hg0 : (0 : Int) ≤ (if type = 1 then G else G_INV) := by
    split_ifs <;> decide
  have hg1 : (if type = 1 then G else G_INV) ≤ (3037000499 : Int) := by
    split_ifs <;> decide
  exact ⟨(qpow_spec _ _ hg0 hg1 hlt).2.1, qpow_cast _ _ hg0 hg1 hlt⟩

/-! ## All passes: the array ends as the transform of the permuted input -/

theorem ntt_passes_stage (type : Int) (k : Nat) (hk : k ≤ 23) (f0 : Nat → F) :
    ∀ (fuel s t : Nat) (a : List Int), s + t = k → s ≤ fuel →
    Stage (root type k) f0 (2 ^ k) s t a →
    Stage (root type k) f0 (2 ^ k) 0 k (ntt_passes type (2 ^ k) fuel (2 ^ t) a) := by
  intro fuel
  induction fuel with
  | zero =>
    intro s t a hst hs h
    have hs0 : s = 0 := by omega
    subst hs0
    have : t = k := by omega
    subst this
    exact h
  | succ fuel ih =>
    intro s t a hst hs h
    unfold ntt_passes
    by_cases hlt : t < k
    · have h1 : (2 : Nat) ^ t < 2 ^ k := pow_lt_pow_right₀ (by norm_num) hlt
      obtain ⟨s1, rfl⟩ : ∃ s1, s = s1 + 1 := ⟨s - 1, by omega⟩
      rw [if_pos h1]
      have hw := wn_spec type t
      have hstep := stage_step (root type k) f0 (2 ^ k) s1 t a _ h hw.1
        (by rw [hw.2, root_pow type k s1 (t + 1) hk (by omega)])
        (by
          obtain ⟨k1, rfl⟩ : ∃ k1, k = k1 + 1 := ⟨k - 1, by omega⟩
          have : s1 + t = k1 := by omega
          rw [this]
          exact root_half type k1 hk)
      have h2 : 2 * 2 ^ t = 2 ^ (t + 1) := by rw [pow_succ']
      have hfin := ih s1 (t + 1) _ (by omega) (by omega) hstep
      rw [← h2] at hfin
      exact hfin
    · have hte : t = k := by omega
      subst hte
      rw [if_neg (lt_irrefl _)]
      have hs0 : s = 0 := by omega
      subst hs0
      exact h

/-- The permutation loop followed by all passes computes the transform. -/
theorem ntt_core (type : Int) (k : Nat) (hk : k ≤ 23) (a : List Int) (hlen : a.length = 2 ^ k)
    (hin : ∀ i, i < 2 ^ k → InField (load a i)) :
    (ntt_passes type (2 ^ k) 32 1
      ((List.range (2 ^ k)).foldl (ntt_swap (rev_table k)) a)).length = 2 ^ k ∧
    (∀ i, i < 2 ^ k → InField (load (ntt_passes type (2 ^ k) 32 1
      ((List.range (2 ^ k)).foldl (ntt_swap (rev_table k)) a)) i)) ∧
    ∀ p, p < 2 ^ k → ((load (ntt_passes type (2 ^ k) 32 1
      ((List.range (2 ^ k)).foldl (ntt_swap (rev_table k)) a)) p : Int) : F) =
      dft (root type k) (2 ^ k) (fun q => ((load a q : Int) : F)) p := by
  obtain ⟨hl1, hv1⟩ := ntt_swap_spec (2 ^ k) (bitrev k) (rev_table k) a
    (fun i hi => load_rev_table k hi) (fun i _ => bitrev_lt k i) (bitrev_invol k) hlen
  generalize (List.range (2 ^ k)).foldl (ntt_swap (rev_table k)) a = a1 at hl1 hv1
  have hst : Stage (root type k) (fun q => ((load a q : Int) : F)) (2 ^ k) k 0 a1 := by
    refine ⟨rfl, hl1, fun i hi => ?_, fun b hb p hp => ?_⟩
    · rw [hv1 i hi]; exact hin _ (bitrev_lt k i)
    · have hp0 : p = 0 := by simpa using hp
      subst hp0
      simp only [pow_zero, Nat.mul_one, Nat.add_zero]
      rw [hv1 b hb]
      simp [dft]
  have hfin := ntt_passes_stage type k hk (fun q => ((load a q : Int) : F)) 32 k 0 a1
    (by omega) (by omega) hst
  rw [pow_zero] at hfin
  obtain ⟨_, h2, h3, h4⟩ := hfin
  refine ⟨h2, h3, fun p hp => ?_⟩
  have := h4 0 (by simp) p hp
  simpa [bitrev_zero] using this

/-- Forward mode: `ntt` with the bit-reversal table computes the transform with
root `root 1 k`. -/
theorem ntt_forward (k : Nat) (hk : k ≤ 23) (a : List Int) (hlen : a.length = 2 ^ k)
    (hin : ∀ i, i < 2 ^ k → InField (load a i)) :
    (ntt a (2 ^ k) 1 (rev_table k)).length = 2 ^ k ∧
    (∀ i, i < 2 ^ k → InField (load (ntt a (2 ^ k) 1 (rev_table k)) i)) ∧
    ∀ p, p < 2 ^ k → ((load (ntt a (2 ^ k) 1 (rev_table k)) p : Int) : F) =
      dft (root 1 k) (2 ^ k) (fun q => ((load a q : Int) : F)) p := by
  have h := ntt_core 1 k hk a hlen hin
  unfold ntt
  have hne : ¬ ((1 : Int) = -1) := by decide
  simp only [hne, if_false]
  exact h

/-! ## Loops that rewrite every entry from its own old value -/

theorem map_loop (φ : Nat → Int → Int) (body : List Int → Nat → List Int)
    (hbody : ∀ a i, body a i = store a i (φ i (load a i))) (a : List Int) :
    ∀ c, c ≤ a.length →
    ((List.range c).foldl body a).length = a.length ∧
    ∀ i, load ((List.range c).foldl body a) i = if i < c then φ i (load a i) else load a i := by
  intro c
  induction c with
  | zero => intro _; exact ⟨rfl, fun i => by simp⟩
  | succ c ih =>
    intro hc
    obtain ⟨hl, hv⟩ := ih (by omega)
    rw [foldl_range_succ, hbody]
    generalize (List.range c).foldl body a = b at hl hv
    refine ⟨by rw [length_store, hl], fun i => ?_⟩
    rw [load_store_of_lt (by omega), hv c, if_neg (lt_irrefl _)]
    by_cases hic : i = c
    · subst hic; simp
    · rw [if_neg hic, hv i]
      by_cases hlt : i < c
      · rw [if_pos hlt, if_pos (by omega)]
      · rw [if_neg hlt, if_neg (by omega)]

/-! ## The inverse scaling factor -/

theorem two_pow_full : ((2 : F)) ^ 998244352 = 1 := by
  have h1 := qpow_cast 2 998244352 (by decide) (by decide) (by norm_num)
  have h2 : qpow 2 ((998244352 : Nat) : Int) = 1 := qpow_two_full
  rw [h2] at h1
  have h3 : (((2 : Int)) : F) = 2 := by push_cast; rfl
  rw [h3] at h1
  rw [← h1]; simp

/-- The factor `inv = qpow(limit, MOD - 2)` is the inverse of `limit = 2 ^ k`. -/
theorem inv_spec (k : Nat) (hk : k ≤ 23) :
    InField (qpow (((2 ^ k : Nat)) : Int) (MOD - 2)) ∧
    ((2 : F)) ^ k * ((qpow (((2 ^ k : Nat)) : Int) (MOD - 2) : Int) : F) = 1 := by
  have he : (MOD - 2 : Int) = ((998244351 : Nat) : Int) := by decide
  have hb0 : (0 : Int) ≤ (((2 ^ k : Nat)) : Int) := by positivity
  have hb1 : (((2 ^ k : Nat)) : Int) ≤ 3037000499 := by
    have h1 : (2 : Nat) ^ k ≤ 2 ^ 23 := pow_le_pow_right₀ (by norm_num) hk
    have h2 : (((2 ^ k : Nat)) : Int) ≤ ((2 ^ 23 : Nat) : Int) := by exact_mod_cast h1
    have h3 : ((2 ^ 23 : Nat) : Int) ≤ 3037000499 := by norm_num
    exact le_trans h2 h3
  rw [he]
  refine ⟨(qpow_spec _ _ hb0 hb1 (by norm_num)).2.1, ?_⟩
  rw [qpow_cast _ _ hb0 hb1 (by norm_num)]
  push_cast
  have h4 : ((2 : F)) ^ k * (((2 : F)) ^ k) ^ 998244351 = (((2 : F)) ^ 998244352) ^ k := by
    rw [← pow_mul, ← pow_mul, ← pow_add]
    congr 1
    ring
  rw [h4, two_pow_full, one_pow]

/-- Inverse mode: `ntt` computes the transform with root `root (-1) k` and
multiplies every entry by the inverse of the length. -/
theorem ntt_inverse (k : Nat) (hk : k ≤ 23) (a : List Int) (hlen : a.length = 2 ^ k)
    (hin : ∀ i, i < 2 ^ k → InField (load a i)) :
    (ntt a (2 ^ k) (-1) (rev_table k)).length = 2 ^ k ∧
    (∀ i, i < 2 ^ k → InField (load (ntt a (2 ^ k) (-1) (rev_table k)) i)) ∧
    ∀ p, p < 2 ^ k → ((2 : F)) ^ k * ((load (ntt a (2 ^ k) (-1) (rev_table k)) p : Int) : F) =
      dft (root (-1) k) (2 ^ k) (fun q => ((load a q : Int) : F)) p := by
  obtain ⟨h1, h2, h3⟩ := ntt_core (-1) k hk a hlen hin
  unfold ntt
  simp only [if_true]
  generalize ntt_passes (-1) (2 ^ k) 32 1
    ((List.range (2 ^ k)).foldl (ntt_swap (rev_table k)) a) = a2 at h1 h2 h3
  obtain ⟨hi1, hi2⟩ := inv_spec k hk
  generalize qpow (((2 ^ k : Nat)) : Int) (MOD - 2) = inv at hi1 hi2
  obtain ⟨hl, hv⟩ := map_loop (fun _ x => (wrap64 (x * inv)).tmod MOD) (ntt_scale inv)
    (fun _ _ => rfl) a2 (2 ^ k) (by omega)
  refine ⟨by rw [hl, h1], fun i hi => ?_, fun p hp => ?_⟩
  · rw [hv i, if_pos hi]
    exact (mulmod_field (h2 i hi) hi1).1
  · rw [hv p, if_pos hp, (mulmod_field (h2 p hp) hi1).2, h3 p hp]
    rw [mul_comm (dft _ _ _ _), ← mul_assoc, hi2, one_mul]

/-! ## Orthogonality of the roots of unity -/

theorem geom_sum_zero (k : Nat) : ∀ (x : F), x ^ (2 ^ k) = -1 → ∀ d, 0 < d → d < 2 ^ (k + 1) →
    ∑ i in Finset.range (2 ^ (k + 1)), x ^ (d * i) = 0 := by
  induction k with
  | zero =>
    intro x hx d hd0 hd
    have hd1 : d = 1 := by
      have : d < 2 := by simpa using hd
      omega
    subst hd1
    have hx1 : x = -1 := by simpa using hx
    simp [Finset.sum_range_succ, hx1]
  | succ k ih =>
    intro x hx d hd0 hd
    have hsplit : (2 : Nat) ^ (k + 1 + 1) = 2 ^ (k + 1) + 2 ^ (k + 1) := by
      rw [pow_succ 2 (k + 1)]; ring
    rw [hsplit, Finset.sum_range_add]
    have hshift : ∀ i, x ^ (d * (2 ^ (k + 1) + i)) = (-1) ^ d * x ^ (d * i) := by
      intro i
      have : d * (2 ^ (k + 1) + i) = 2 ^ (k + 1) * d + d * i := by ring
      rw [this, pow_add, pow_mul, hx]
    simp only [hshift]
    rw [← Finset.mul_sum]
    rcases Nat.even_or_odd d with he | ho
    · obtain ⟨d1, hd1⟩ := he
      have hd2 : d = 2 * d1 := by omega
      subst hd2
      have hS : ∑ i in Finset.range (2 ^ (k + 1)), x ^ (2 * d1 * i) = 0 := by
        have hpow : ∀ i, x ^ (2 * d1 * i) = (x ^ 2) ^ (d1 * i) := by
          intro i; rw [← pow_mul]; congr 1; ring
        simp only [hpow]
        apply ih (x ^ 2)
        · rw [← pow_mul, ← pow_succ']; exact hx
        · omega
        · rw [pow_succ 2 (k + 1)] at hd; omega
      rw [hS]; simp
    · rw [ho.neg_one_pow]; ring

theorem orthogonality (k : Nat) (x y : F) (hxy : x * y = 1)
    (hx : ∀ k1, k = k1 + 1 → x ^ (2 ^ k1) = -1) (hy : ∀ k1, k = k1 + 1 → y ^ (2 ^ k1) = -1)
    (l m : Nat) (hl : l < 2 ^ k) (hm : m < 2 ^ k) :
    ∑ i in Finset.range (2 ^ k), x ^ (i * l) * y ^ (m * i) =
      if l = m then ((2 : F)) ^ k else 0 := by
  have hyx : y * x = 1 := by rw [mul_comm]; exact hxy
  by_cases hlm : l = m
  · subst hlm
    rw [if_pos rfl]
    have h1 : ∀ i, x ^ (i * l) * y ^ (l * i) = 1 := by
      intro i
      rw [mul_comm l i, ← mul_pow, hxy, one_pow]
    simp only [h1]
    simp
  · rw [if_neg hlm]
    have hk : 0 < k := by
      rcases Nat.eq_zero_or_pos k with h0 | h0
      · subst h0
        simp at hl hm
        omega
      · exact h0
    obtain ⟨k1, rfl⟩ : ∃ k1, k = k1 + 1 := ⟨k - 1, by omega⟩
    rcases Nat.lt_or_gt_of_ne hlm with hlt | hgt
    · have h1 : ∀ i, x ^ (i * l) * y ^ (m * i) = y ^ ((m - l) * i) := by
        intro i
        have : m * i = i * l + (m - l) * i := by
          have hml : m = l + (m - l) := by omega
          conv_lhs => rw [hml]
          ring
        rw [this, pow_add, ← mul_assoc, ← mul_pow, hxy, one_pow, one_mul]
      simp only [h1]
      exact geom_sum_zero k1 y (hy k1 rfl) (m - l) (by omega) (by omega)
    · have h1 : ∀ i, x ^ (i * l) * y ^ (m * i) = x ^ ((l - m) * i) := by
        intro i
        have : i * l = (l - m) * i + m * i := by
          have hml : l = m + (l - m) := by omega
          conv_lhs => rw [hml]
          ring
        rw [this, pow_add, mul_assoc, ← mul_pow, hxy, one_pow, mul_one]
      simp only [h1]
      exact geom_sum_zero k1 x (hx k1 rfl) (l - m) (by omega) (by omega)

/-- The transform with the inverse root undoes the transform, up to the factor
`2 ^ k`. -/
theorem dft_dft (k : Nat) (x y : F) (hxy : x * y = 1)
    (hx : ∀ k1, k = k1 + 1 → x ^ (2 ^ k1) = -1) (hy : ∀ k1, k = k1 + 1 → y ^ (2 ^ k1) = -1)
    (f : Nat → F) (m : Nat) (hm : m < 2 ^ k) :
    dft y (2 ^ k) (fun i => dft x (2 ^ k) f i) m = ((2 : F)) ^ k * f m := by
  unfold dft
  simp only [Finset.sum_mul]
  rw [Finset.sum_comm]
  have h1 : ∀ q, q ∈ Finset.range (2 ^ k) →
      ∑ i in Finset.range (2 ^ k), f q * x ^ (i * q) * y ^ (m * i) =
        if q = m then f q * ((2 : F)) ^ k else 0 := by
    intro q hq
    have h2 := orthogonality k x y hxy hx hy q m (Finset.mem_range.mp hq) hm
    have h3 : ∀ i, f q * x ^ (i * q) * y ^ (m * i) = f q * (x ^ (i * q) * y ^ (m * i)) := by
      intro i; ring
    simp only [h3]
    rw [← Finset.mul_sum, h2]
    split_ifs <;> simp
  rw [Finset.sum_congr rfl h1, Finset.sum_ite_eq' (Finset.range (2 ^ k)) m,
    if_pos (Finset.mem_range.mpr hm)]
  ring

theorem root_mul_root (k : Nat) : root 1 k * root (-1) k = 1 := by
  unfold root
  have h1 : ¬ ((-1 : Int) = 1) := by decide
  simp only [if_true, h1, if_false]
  rw [← mul_pow]
  have h2 : ((G : Int) : F) * ((G_INV : Int) : F) = 1 := by
    have h3 : (G * G_INV : Int) = 1 + MOD := by decide
    have h4 : (((G * G_INV : Int)) : F) = 1 := by
      rw [h3, ← cast_emod]
      have : ((1 + MOD) % MOD : Int) = 1 := by decide
      rw [this]; simp
    rw [← h4]; push_cast; rfl
  rw [h2, one_pow]

/-- Round trip in the residue ring. -/
theorem dft_round_trip (k : Nat) (hk : k ≤ 23) (f : Nat → F) (m : Nat) (hm : m < 2 ^ k) :
    dft (root (-1) k) (2 ^ k) (fun i => dft (root 1 k) (2 ^ k) f i) m = ((2 : F)) ^ k * f m := by
  apply dft_dft k _ _ (root_mul_root k) _ _ f m hm
  · intro k1 hk1
    subst hk1
    exact root_half 1 k1 hk
  · intro k1 hk1
    subst hk1
    exact root_half (-1) k1 hk

theorem two_pow_cancel (k : Nat) {u v : F} (h : ((2 : F)) ^ k * u = ((2 : F)) ^ k * v) :
    u = v := by
  have h1 : ((2 : F)) ^ 998244351 * (2 : F) = 1 := by
    rw [← pow_succ]; exact two_pow_full
  have h2 : (((2 : F)) ^ 998244351) ^ k * ((2 : F)) ^ k = 1 := by
    rw [← mul_pow, h1, one_pow]
  calc u = (((2 : F)) ^ 998244351) ^ k * (((2 : F)) ^ k * u) := by
        rw [← mul_assoc, h2, one_mul]
    _ = (((2 : F)) ^ 998244351) ^ k * (((2 : F)) ^ k * v) := by rw [h]
    _ = v := by rw [← mul_assoc, h2, one_mul]

/-! ## The pointwise product is the transform of the schoolbook product -/

theorem sum_range_restrict (f : Nat → F) (m n : Nat) (hmn : m ≤ n)
    (hz : ∀ q, m ≤ q → q < n → f q = 0) :
    ∑ q in Finset.range n, f q = ∑ q in Finset.range m, f q := by
  have hn : n = m + (n - m) := by omega
  rw [hn, Finset.sum_range_add]
  have h0 : ∑ x in Finset.range (n - m), f (m + x) = 0 := by
    apply Finset.sum_eq_zero
    intro x hx
    have := Finset.mem_range.mp hx
    exact hz _ (by omega) (by omega)
  rw [h0, add_zero]

theorem conv_inner (α β : Nat → F) (dB n j : Nat) (hn : j + dB < n) (z : F) :
    ∑ s in Finset.range n, (if j ≤ s ∧ s - j ≤ dB then α j * β (s - j) else 0) * z ^ s =
      ∑ l in Finset.range (dB + 1), α j * z ^ j * (β l * z ^ l) := by
  have hnj : n = j + (n - j) := by omega
  rw [hnj, Finset.sum_range_add]
  have h0 : ∑ s in Finset.range j,
      (if j ≤ s ∧ s - j ≤ dB then α j * β (s - j) else 0) * z ^ s = 0 := by
    apply Finset.sum_eq_zero
    intro s hs
    have := Finset.mem_range.mp hs
    rw [if_neg (by omega), zero_mul]
  rw [h0, zero_add]
  rw [sum_range_restrict _ (dB + 1) (n - j) (by omega)]
  · apply Finset.sum_congr rfl
    intro l hl
    have := Finset.mem_range.mp hl
    have h1 : j + l - j = l := by omega
    rw [if_pos ⟨by omega, by omega⟩, h1, pow_add]
    ring
  · intro q hq1 _
    rw [if_neg (by omega), zero_mul]

theorem conv_eval (α β : Nat → F) (dA dB n : Nat) (hn : dA + dB < n) (z : F) :
    (∑ q in Finset.range n, (if q ≤ dA then α q else 0) * z ^ q) *
      (∑ l in Finset.range n, (if l ≤ dB then β l else 0) * z ^ l) =
    ∑ s in Finset.range n,
      (∑ j in Finset.range (dA + 1), if j ≤ s ∧ s - j ≤ dB then α j * β (s - j) else 0) *
        z ^ s := by
  have hA : ∑ q in Finset.range n, (if q ≤ dA then α q else 0) * z ^ q =
      ∑ q in Finset.range (dA + 1), α q * z ^ q := by
    rw [sum_range_restrict _ (dA + 1) n (by omega)]
    · apply Finset.sum_congr rfl
      intro q hq
      have := Finset.mem_range.mp hq
      rw [if_pos (by omega)]
    · intro q hq _
      rw [if_neg (by omega), zero_mul]
  have hB : ∑ l in Finset.range n, (if l ≤ dB then β l else 0) * z ^ l =
      ∑ l in Finset.range (dB + 1), β l * z ^ l := by
    rw [sum_range_restrict _ (dB + 1) n (by omega)]
    · apply Finset.sum_congr rfl
      intro q hq
      have := Finset.mem_range.mp hq
      rw [if_pos (by omega)]
    · intro q hq _
      rw [if_neg (by omega), zero_mul]
  rw [hA, hB]
  simp only [Finset.sum_mul]
  rw [Finset.sum_comm]
  apply Finset.sum_congr rfl
  intro j hj
  have hjA := Finset.mem_range.mp hj
  rw [conv_inner α β dB n j (by omega) z, Finset.mul_sum]

theorem dft_congr (w : F) (m : Nat) (f g : Nat → F) (p : Nat)
    (h : ∀ q, q < m → f q = g q) : dft w m f p = dft w m g p := by
  unfold dft
  apply Finset.sum_congr rfl
  intro q hq
  rw [h q (Finset.mem_range.mp hq)]

theorem dft_eq_eval (w : F) (m : Nat) (f : Nat → F) (p : Nat) :
    dft w m f p = ∑ q in Finset.range m, f q * (w ^ p) ^ q := by
  unfold dft
  apply Finset.sum_congr rfl
  intro q _
  rw [pow_mul]

/-- The residue of a schoolbook coefficient. -/
theorem cast_schoolbook (A : List Int) (degA : Nat) (B : List Int) (degB : Nat) (i : Nat) :
    ((schoolbook A degA B degB i : Int) : F) =
      ∑ j in Finset.range (degA + 1),
        if j ≤ i ∧ i - j ≤ degB then ((load A j : Int) : F) * ((load B (i - j) : Int) : F)
        else 0 := by
  unfold schoolbook
  rw [Int.cast_sum]
  apply Finset.sum_congr rfl
  intro j _
  split_ifs
  · push_cast; rfl
  · simp

/-! ## `poly_multiply` -/

theorem inField_zero : InField 0 := ⟨le_refl _, by decide⟩

/-- The array after `calloc` and the copy loop `for (i = 0; i <= deg; i++)`. -/
theorem padded_spec (A : List Int) (deg n : Nat) (hdn : deg < n)
    (hA : ∀ i, i ≤ deg → InField (load A i)) :
    ((List.range (deg + 1)).foldl (copy_body A) (List.replicate n 0)).length = n ∧
    (∀ i, i < n →
      InField (load ((List.range (deg + 1)).foldl (copy_body A) (List.replicate n 0)) i)) ∧
    ∀ i, ((load ((List.range (deg + 1)).foldl (copy_body A) (List.replicate n 0)) i : Int) : F) =
      if i ≤ deg then ((load A i : Int) : F) else 0 := by
  obtain ⟨hl, hv⟩ := map_loop (fun i _ => load A i) (copy_body A) (fun _ _ => rfl)
    (List.replicate n 0) (deg + 1) (by simp; omega)
  refine ⟨by rw [hl]; simp, fun i _ => ?_, fun i => ?_⟩
  · rw [hv i]
    split_ifs with h
    · exact hA i (by omega)
    · rw [load_replicate]; exact inField_zero
  · rw [hv i]
    by_cases h : i ≤ deg
    · rw [if_pos (by omega), if_pos h]
    · rw [if_neg (by omega), if_neg h, load_replicate]; simp

/-- The working array of `poly_multiply` before the final copy holds the
schoolbook product reduced modulo `MOD`. -/
theorem poly_multiply_spec (A : List Int) (degA : Nat) (B : List Int) (degB : Nat)
    (result : List Int) (heap : Nat → Int) (hdeg : degA + degB < 2 ^ 23)
    (hA : ∀ i, i ≤ degA → InField (load A i)) (hB : ∀ i, i ≤ degB → InField (load B i))
    (hheap : heap 0 = 0) :
    ∃ a4 : List Int, a4.length = 2 ^ Nat.size (degA + degB) ∧
      (∀ i, i < 2 ^ Nat.size (degA + degB) → load a4 i = schoolbook A degA B degB i % MOD) ∧
      poly_multiply A degA B degB result heap =
        some ((2 : Int) ^ Nat.size (degA + degB),
          (List.range (2 ^ Nat.size (degA + degB))).foldl (copy_body a4) result) := by
  generalize hkdef : Nat.size (degA + degB) = k
  have hk : k ≤ 23 := by rw [← hkdef]; exact Nat.size_le.mpr hdeg
  have hsn : degA + degB < 2 ^ k := by rw [← hkdef]; exact Nat.size_le.mp (le_refl _)
  have hlim : limit_loop 64 1 (wrap32 ((degA : Int) + (degB : Int))) = some ((2 : Int) ^ k) := by
    have := limit_search (degA + degB) (by omega)
    rw [hkdef] at this
    push_cast at this
    exact this
  have htn : ((2 : Int) ^ k).toNat = 2 ^ k := by
    have : ((2 : Int) ^ k) = (((2 ^ k : Nat)) : Int) := by push_cast; rfl
    rw [this, Int.toNat_ofNat]
  unfold poly_multiply
  rw [hlim, Option.map_some']
  unfold poly_multiply_body
  simp only [htn]
  have hr : get_rev (2 ^ k) ((List.range (2 ^ k)).map heap) = rev_table k :=
    get_rev_spec k (by omega) _ (by simp)
      (by rw [load_map_range _ (by positivity)]; exact hheap)
  rw [hr]
  obtain ⟨hla1, hina1, hva1⟩ := padded_spec A degA (2 ^ k) (by omega) hA
  obtain ⟨hlb1, hinb1, hvb1⟩ := padded_spec B degB (2 ^ k) (by omega) hB
  generalize (List.range (degA + 1)).foldl (copy_body A) (List.replicate (2 ^ k) 0) = a1
    at hla1 hina1 hva1
  generalize (List.range (degB + 1)).foldl (copy_body B) (List.replicate (2 ^ k) 0) = b1
    at hlb1 hinb1 hvb1
  obtain ⟨hla2, hina2, hva2⟩ := ntt_forward k hk a1 hla1 hina1
  obtain ⟨hlb2, hinb2, hvb2⟩ := ntt_forward k hk b1 hlb1 hinb1
  generalize ntt a1 (2 ^ k) 1 (rev_table k) = a2 at hla2 hina2 hva2
  generalize ntt b1 (2 ^ k) 1 (rev_table k) = b2 at hlb2 hinb2 hvb2
  obtain ⟨hla3, hva3⟩ := map_loop (fun i x => (wrap64 (x * load b2 i)).tmod MOD)
    (pointwise_body b2) (fun _ _ => rfl) a2 (2 ^ k) (by omega)
  generalize (List.range (2 ^ k)).foldl (pointwise_body b2) a2 = a3 at hla3 hva3
  have hina3 : ∀ i, i < 2 ^ k → InField (load a3 i) := by
    intro i hi
    rw [hva3 i, if_pos hi]
    exact (mulmod_field (hina2 i hi) (hinb2 i hi)).1
  obtain ⟨hla4, hina4, hva4⟩ := ntt_inverse k hk a3 (by rw [hla3, hla2]) hina3
  refine ⟨ntt a3 (2 ^ k) (-1) (rev_table k), hla4, fun i hi => ?_, rfl⟩
  apply eq_of_cast_eq (hina4 i hi) (emod_inField _)
  rw [cast_emod]
  apply two_pow_cancel k
  rw [hva4 i hi]
  have hkey : ∀ q, q < 2 ^ k → ((load a3 q : Int) : F) =
      dft (root 1 k) (2 ^ k) (fun s => ((schoolbook A degA B degB s : Int) : F)) q := by
    intro q hq
    rw [hva3 q, if_pos hq, (mulmod_field (hina2 q hq) (hinb2 q hq)).2, hva2 q hq, hvb2 q hq,
      dft_eq_eval, dft_eq_eval, dft_eq_eval]
    simp only [hva1, hvb1, cast_schoolbook]
    exact conv_eval _ _ degA degB (2 ^ k) hsn _
  rw [dft_congr _ _ _ _ _ hkey]
  exact dft_round_trip k hk _ i hi

/-- The final copy loop `for (i = 0; i < limit; i++) result[i] = a[i]`. -/
theorem copy_spec (src dst : List Int) (n : Nat) (hn : n ≤ dst.length) :
    ((List.range n).foldl (copy_body src) dst).length = dst.length ∧
    ∀ i, load ((List.range n).foldl (copy_body src) dst) i =
      if i < n then load src i else load dst i :=
  map_loop (fun i _ => load src i) (copy_body src) (fun _ _ => rfl) dst n hn

theorem schoolbook_high (A : List Int) (degA : Nat) (B : List Int) (degB : Nat) (i : Nat)
    (hi : degA + degB < i) : schoolbook A degA B degB i = 0 := by
  unfold schoolbook
  apply Finset.sum_eq_zero
  intro j hj
  have := Finset.mem_range.mp hj
  rw [if_neg (by omega)]

/-! ## Shape of the result of `poly_multiply` -/

theorem size_eq_of_bounds {s k : Nat} (h1 : s < 2 ^ k) (h2 : k = 0 ∨ 2 ^ (k - 1) ≤ s) :
    Nat.size s = k := by
  have h3 : Nat.size s ≤ k := Nat.size_le.mpr h1
  rcases h2 with h0 | h4
  · omega
  · have h5 : k - 1 < Nat.size s := Nat.lt_size.mpr h4
    omega

theorem size_bounds (s : Nat) :
    s < 2 ^ Nat.size s ∧ (Nat.size s = 0 ∨ 2 ^ (Nat.size s - 1) ≤ s) := by
  refine ⟨Nat.size_le.mp (le_refl _), ?_⟩
  by_cases h : Nat.size s = 0
  · exact Or.inl h
  · exact Or.inr (Nat.lt_size.mp (by omega))

theorem toNat_two_pow (k : Nat) : ((2 : Int) ^ k).toNat = 2 ^ k := by
  have : ((2 : Int) ^ k) = (((2 ^ k : Nat)) : Int) := by push_cast; rfl
  rw [this, Int.toNat_ofNat]

/-- Whatever the inputs, `poly_multiply` returns the power of two found by the
search and copies the first `limit` entries of a working array, which does not
depend on the output buffer, into `result`. -/
theorem poly_multiply_writes (A : List Int) (degA : Nat) (B : List Int) (degB : Nat)
    (heap : Nat → Int) (hdeg : degA + degB < 2 ^ 30) :
    ∃ a : List Int, ∀ result : List Int,
      poly_multiply A degA B degB result heap =
        some ((2 : Int) ^ Nat.size (degA + degB),
          (List.range (2 ^ Nat.size (degA + degB))).foldl (copy_body a) result) := by
  have hlim : limit_loop 64 1 (wrap32 ((degA : Int) + (degB : Int))) =
      some ((2 : Int) ^ Nat.size (degA + degB)) := by
    have := limit_search (degA + degB) hdeg
    push_cast at this
    exact this
  unfold poly_multiply
  rw [hlim]
  simp only [Option.map_some']
  unfold poly_multiply_body
  simp only [toNat_two_pow]
  exact ⟨_, fun _ => rfl⟩

theorem inField_of_mem {A : List Int} (hA : ∀ x ∈ A, 0 ≤ x ∧ x < MOD) {n : Nat}
    (hn : n ≤ A.length) : ∀ i, i < n → InField (load A i) :=
  fun _ hi => hA _ (load_mem (by omega))

theorem load_replicate_of_lt {n i : Nat} (v : Int) (h : i < n) :
    load (List.replicate n v) i = v := by
  unfold load
  rw [List.getD_eq_getElem?_getD, List.getElem?_replicate, if_pos h]
  rfl

/-! ## The claims -/

/-- C1: for `degA + degB < 2 ^ 23` and coefficient sequences `A` (length
`degA + 1`) and `B` (length `degB + 1`) with every entry in `[0, MOD)`, and the
table buffer reading zero at its first entry, `poly_multiply` returns and, when
the output buffer has room for `limit` entries, leaves in `result[i]`, for every
`i ≤ degA + degB`, the schoolbook convolution of `A` and `B` at `i` modulo
`MOD`. -/
theorem poly_multiply_schoolbook (A B result : List Int) (degA degB : Nat) (heap : Nat → Int)
    (hdeg : degA + degB < 2 ^ 23) (hlenA : A.length = degA + 1) (hlenB : B.length = degB + 1)
    (hA : ∀ x ∈ A, 0 ≤ x ∧ x < MOD) (hB : ∀ x ∈ B, 0 ≤ x ∧ x < MOD) (hheap : heap 0 = 0) :
    ∃ limit res, poly_multiply A degA B degB result heap = some (limit, res) ∧
      (limit.toNat ≤ result.length →
        ∀ i : Nat, i ≤ degA + degB → load res i = schoolbook A degA B degB i % MOD) := by
  obtain ⟨a4, _, hv, heq⟩ := poly_multiply_spec A degA B degB result heap hdeg
    (fun i hi => inField_of_mem hA (le_of_eq hlenA.symm) i (by omega))
    (fun i hi => inField_of_mem hB (le_of_eq hlenB.symm) i (by omega)) hheap
  refine ⟨_, _, heq, fun hcap i hi => ?_⟩
  rw [toNat_two_pow] at hcap
  have hlt : i < 2 ^ Nat.size (degA + degB) :=
    lt_of_le_of_lt hi (size_bounds _).1
  rw [(copy_spec a4 result _ hcap).2 i, if_pos hlt]
  exact hv i hlt

theorem poly_multiply_schoolbook_witness :
    ∃ limit res, poly_multiply [1, 2] 1 [2, 3] 1 (List.replicate 8 0) (fun _ => 0) =
        some (limit, res) ∧
      (limit.toNat ≤ (List.replicate 8 (0 : Int)).length →
        ∀ i : Nat, i ≤ 1 + 1 → load res i = schoolbook [1, 2] 1 [2, 3] 1 i % MOD) :=
  poly_multiply_schoolbook [1, 2] [2, 3] (List.replicate 8 0) 1 1 (fun _ => 0)
    (by norm_num) rfl rfl (by decide) (by decide) rfl

/-- C2: for `degA + degB < 2 ^ 30` the value `poly_multiply` returns is the
smallest power of two strictly greater than `degA + degB`: it is `2 ^ k` with
`degA + degB < 2 ^ k` and `k = 0` or `2 ^ (k - 1) ≤ degA + degB`; for
`degA + degB = 2 ^ j - 1` it is `2 ^ j`, for `degA + degB = 2 ^ j` it is
`2 ^ (j + 1)`. -/
theorem poly_multiply_limit (A B result : List Int) (degA degB : Nat) (heap : Nat → Int)
    (hdeg : degA + degB < 2 ^ 30) :
    ∃ k res, poly_multiply A degA B degB result heap = some ((2 : Int) ^ k, res) ∧
      degA + degB < 2 ^ k ∧ (k = 0 ∨ 2 ^ (k - 1) ≤ degA + degB) ∧
      (∀ j, degA + degB = 2 ^ j - 1 → k = j) ∧ (∀ j, degA + degB = 2 ^ j → k = j + 1) := by
  obtain ⟨a, ha⟩ := poly_multiply_writes A degA B degB heap hdeg
  refine ⟨Nat.size (degA + degB), _, ha result, (size_bounds _).1, (size_bounds _).2, ?_, ?_⟩
  · intro j hj
    rw [hj]
    have hpos : 0 < 2 ^ j := by positivity
    apply size_eq_of_bounds (by omega)
    by_cases hj0 : j = 0
    · exact Or.inl hj0
    · right
      obtain ⟨j1, rfl⟩ : ∃ j1, j = j1 + 1 := ⟨j - 1, by omega⟩
      have hpos1 : 0 < 2 ^ j1 := by positivity
      rw [Nat.add_sub_cancel, pow_succ]
      omega
  · intro j hj
    rw [hj]
    apply size_eq_of_bounds
    · rw [pow_succ]
      have hpos : 0 < 2 ^ j := by positivity
      omega
    · right
      rw [Nat.add_sub_cancel]

theorem poly_multiply_limit_witness :
    ∃ k res, poly_multiply [1, 2] 1 [2, 3] 1 (List.replicate 8 0) (fun _ => 0) =
        some ((2 : Int) ^ k, res) ∧
      1 + 1 < 2 ^ k ∧ (k = 0 ∨ 2 ^ (k - 1) ≤ 1 + 1) ∧
      (∀ j, 1 + 1 = 2 ^ j - 1 → k = j) ∧ (∀ j, 1 + 1 = 2 ^ j → k = j + 1) :=
  poly_multiply_limit [1, 2] [2, 3] (List.replicate 8 0) 1 1 (fun _ => 0) (by norm_num)

/-- C3: under the hypotheses of C1, every entry `result[i]` with
`degA + degB < i < limit` is `0` on return. -/
theorem poly_multiply_padding (A B result : List Int) (degA degB : Nat) (heap : Nat → Int)
    (hdeg : degA + degB < 2 ^ 23) (hlenA : A.length = degA + 1) (hlenB : B.length = degB + 1)
    (hA : ∀ x ∈ A, 0 ≤ x ∧ x < MOD) (hB : ∀ x ∈ B, 0 ≤ x ∧ x < MOD) (hheap : heap 0 = 0) :
    ∃ limit res, poly_multiply A degA B degB result heap = some (limit, res) ∧
      (limit.toNat ≤ result.length →
        ∀ i : Nat, degA + degB < i → (i : Int) < limit → load res i = 0) := by
  obtain ⟨a4, _, hv, heq⟩ := poly_multiply_spec A degA B degB result heap hdeg
    (fun i hi => inField_of_mem hA (le_of_eq hlenA.symm) i (by omega))
    (fun i hi => inField_of_mem hB (le_of_eq hlenB.symm) i (by omega)) hheap
  refine ⟨_, _, heq, fun hcap i hi hil => ?_⟩
  rw [toNat_two_pow] at hcap
  have hlt : i < 2 ^ Nat.size (degA + degB) := by
    have : (i : Int) < (((2 ^ Nat.size (degA + degB) : Nat)) : Int) := by
      push_cast; exact hil
    exact_mod_cast this
  rw [(copy_spec a4 result _ hcap).2 i, if_pos hlt, hv i hlt, schoolbook_high _ _ _ _ _ hi]
  rfl

theorem poly_multiply_padding_witness :
    ∃ limit res, poly_multiply [1, 2] 1 [2, 3] 1 (List.replicate 8 5) (fun _ => 0) =
        some (limit, res) ∧
      (limit.toNat ≤ (List.replicate 8 (5 : Int)).length →
        ∀ i : Nat, 1 + 1 < i → (i : Int) < limit → load res i = 0) :=
  poly_multiply_padding [1, 2] [2, 3] (List.replicate 8 5) 1 1 (fun _ => 0)
    (by norm_num) rfl rfl (by decide) (by decide) rfl

set_option maxRecDepth 1000000 in
/-- C4, as stated, fails: on the test of `main` the search stops at
`limit = 4` (the smallest power of two above `degA + degB = 2`), not `8`, and
only the first four entries of the output buffer are written. -/
theorem main_test_limit_is_four :
    poly_multiply [1, 2] 1 [2, 3] 1 (List.replicate 8 77) (fun _ => 0) =
      some (4, [2, 7, 6, 0, 77, 77, 77, 77]) := by
  decide

/-- C4, amended: with the table buffer reading zero at its first entry and an
output buffer of at least four entries, `poly_multiply([1,2], 1, [2,3], 1, result)`
returns `limit = 4`, writes the four coefficients `2, 7, 6, 0` to
`result[0..3]` and leaves every other entry of `result` as it was. -/
theorem poly_multiply_example (result : List Int) (heap : Nat → Int) (hheap : heap 0 = 0)
    (hcap : 4 ≤ result.length) :
    ∃ res, poly_multiply [1, 2] 1 [2, 3] 1 result heap = some (4, res) ∧
      res.length = result.length ∧
      load res 0 = 2 ∧ load res 1 = 7 ∧ load res 2 = 6 ∧ load res 3 = 0 ∧
      ∀ i, 4 ≤ i → load res i = load result i := by
  obtain ⟨a4, _, hv, heq⟩ := poly_multiply_spec [1, 2] 1 [2, 3] 1 result heap (by norm_num)
    (fun i hi => @inField_of_mem [1, 2] (by decide) 2 (le_refl _) i (by omega))
    (fun i hi => @inField_of_mem [2, 3] (by decide) 2 (le_refl _) i (by omega)) hheap
  have hsize : Nat.size (1 + 1) = 2 := size_eq_of_bounds (by norm_num) (Or.inr (by norm_num))
  rw [hsize] at hv heq
  have hcopy := copy_spec a4 result (2 ^ 2) (by simpa using hcap)
  refine ⟨_, heq, hcopy.1, ?_, ?_, ?_, ?_, ?_⟩
  · rw [hcopy.2 0, if_pos (by norm_num), hv 0 (by norm_num)]
    simp [schoolbook, Finset.sum_range_succ, load]
    decide
  · rw [hcopy.2 1, if_pos (by norm_num), hv 1 (by norm_num)]
    simp [schoolbook, Finset.sum_range_succ, load]
    decide
  · rw [hcopy.2 2, if_pos (by norm_num), hv 2 (by norm_num)]
    simp [schoolbook, Finset.sum_range_succ, load]
    decide
  · rw [hcopy.2 3, if_pos (by norm_num), hv 3 (by norm_num)]
    simp [schoolbook, Finset.sum_range_succ, load]
  · intro i hi
    rw [hcopy.2 i, if_neg (by norm_num; omega)]

theorem poly_multiply_example_witness :
    ∃ res, poly_multiply [1, 2] 1 [2, 3] 1 (List.replicate 8 77) (fun _ => 0) = some (4, res) ∧
      res.length = (List.replicate 8 (77 : Int)).length ∧
      load res 0 = 2 ∧ load res 1 = 7 ∧ load res 2 = 6 ∧ load res 3 = 0 ∧
      ∀ i, 4 ≤ i → load res i = load (List.replicate 8 77) i :=
  poly_multiply_example (List.replicate 8 77) (fun _ => 0) rfl (by decide)

/-- C5, as stated, fails: for `degA = degB = 255` the search stops at
`limit = 512`, the smallest power of two above `510`, not `1024`, and the
entries `512..1023` of a 1024-entry output buffer are not written. -/
theorem scaling_test_limit_is_512 :
    ∃ res, poly_multiply (List.replicate 256 1) 255 (List.replicate 256 1) 255
        (List.replicate 1024 7) (fun _ => 0) = some (512, res) ∧
      ∀ i, 512 ≤ i → i < 1024 → load res i = 7 := by
  obtain ⟨a, ha⟩ := poly_multiply_writes (List.replicate 256 1) 255 (List.replicate 256 1) 255
    (fun _ => 0) (by norm_num)
  have hsize : Nat.size (255 + 255) = 9 := size_eq_of_bounds (by norm_num) (Or.inr (by norm_num))
  rw [hsize] at ha
  refine ⟨_, ha _, fun i hi1 hi2 => ?_⟩
  rw [(copy_spec a (List.replicate 1024 7) (2 ^ 9)
    (by rw [List.length_replicate]; norm_num)).2 i, if_neg (by norm_num; omega)]
  exact load_replicate_of_lt 7 hi2

/-- C5, amended: for `degA = degB = 255`, coefficient sequences of length 256
with every entry in `[0, MOD)`, the table buffer reading zero at its first entry
and an output buffer of at least 512 entries, `poly_multiply` returns
`limit = 512`, the smallest power of two above `510`, and writes exactly the 512
entries `result[0..511]`: entry `i < 512` receives the schoolbook coefficient
modulo `MOD`, and every other entry of `result` is left as it was. -/
theorem poly_multiply_255 (A B result : List Int) (heap : Nat → Int)
    (hlenA : A.length = 256) (hlenB : B.length = 256)
    (hA : ∀ x ∈ A, 0 ≤ x ∧ x < MOD) (hB : ∀ x ∈ B, 0 ≤ x ∧ x < MOD)
    (hheap : heap 0 = 0) (hcap : 512 ≤ result.length) :
    ∃ res, poly_multiply A 255 B 255 result heap = some (512, res) ∧
      res.length = result.length ∧
      ∀ i, load res i = if i < 512 then schoolbook A 255 B 255 i % MOD else load result i := by
  obtain ⟨a4, _, hv, heq⟩ := poly_multiply_spec A 255 B 255 result heap (by norm_num)
    (fun i hi => inField_of_mem hA (le_of_eq hlenA.symm) i (by omega))
    (fun i hi => inField_of_mem hB (le_of_eq hlenB.symm) i (by omega)) hheap
  have hsize : Nat.size (255 + 255) = 9 := size_eq_of_bounds (by norm_num) (Or.inr (by norm_num))
  rw [hsize] at hv heq
  have hcopy := copy_spec a4 result (2 ^ 9) (by simpa using hcap)
  refine ⟨_, heq, hcopy.1, fun i => ?_⟩
  rw [hcopy.2 i]
  have h512 : (2 : Nat) ^ 9 = 512 := by norm_num
  by_cases hi : i < 512
  · rw [if_pos (by omega), if_pos hi]
    exact hv i (by omega)
  · rw [if_neg (by omega), if_neg hi]

theorem poly_multiply_255_witness :
    ∃ res, poly_multiply (List.replicate 256 1) 255 (List.replicate 256 2) 255
        (List.replicate 512 3) (fun _ => 0) = some (512, res) ∧
      res.length = (List.replicate 512 (3 : Int)).length ∧
      ∀ i, load res i =
        if i < 512 then
          schoolbook (List.replicate 256 1) 255 (List.replicate 256 2) 255 i % MOD
        else load (List.replicate 512 3) i :=
  poly_multiply_255 (List.replicate 256 1) (List.replicate 256 2) (List.replicate 512 3)
    (fun _ => 0) (List.length_replicate _ _) (List.length_replicate _ _)
    (fun x hx => by rw [List.eq_of_mem_replicate hx]; decide)
    (fun x hx => by rw [List.eq_of_mem_replicate hx]; decide)
    rfl (by rw [List.length_replicate])

/-- C6: for `limit = 2 ^ k` with `k ≤ 23`, an array `a` of `limit` entries in
`[0, MOD)` and the bit-reversal table of `limit`, `ntt(a, limit, 1, r)` followed
by `ntt(a, limit, -1, r)` leaves `a` equal to its original contents. -/
theorem ntt_round_trip (k : Nat) (a : List Int) (hk : k ≤ 23) (hlen : a.length = 2 ^ k)
    (ha : ∀ x ∈ a, 0 ≤ x ∧ x < MOD) :
    ntt (ntt a (2 ^ k) 1 (rev_table k)) (2 ^ k) (-1) (rev_table k) = a := by
  have hin := inField_of_mem ha (le_of_eq hlen.symm)
  obtain ⟨hl1, hin1, hv1⟩ := ntt_forward k hk a hlen hin
  generalize ntt a (2 ^ k) 1 (rev_table k) = a1 at hl1 hin1 hv1
  obtain ⟨hl2, hin2, hv2⟩ := ntt_inverse k hk a1 hl1 hin1
  apply list_ext_load (by rw [hl2, hlen])
  intro i hi
  rw [hl2] at hi
  apply eq_of_cast_eq (hin2 i hi) (hin i hi)
  apply two_pow_cancel k
  rw [hv2 i hi, dft_congr _ _ _ _ _ hv1]
  exact dft_round_trip k hk _ i hi

theorem ntt_round_trip_witness :
    ntt (ntt [1, 2, 3, 998244352] (2 ^ 2) 1 (rev_table 2)) (2 ^ 2) (-1) (rev_table 2) =
      [1, 2, 3, 998244352] :=
  ntt_round_trip 2 [1, 2, 3, 998244352] (by norm_num) rfl (by decide)

/-- C7: for `limit = 2 ^ k` with `k ≤ 23`, an array `a0` of `limit` entries in
`[0, MOD)` and the bit-reversal table of `limit`, after `ntt(a, limit, 1, r)`
every `a[i]` is the sum of `a0[j] * w ^ (i * j)` over `j < limit`, modulo `MOD`,
with `w = G ^ ((MOD - 1) / limit) mod MOD`. -/
theorem ntt_forward_dft (k : Nat) (a0 : List Int) (hk : k ≤ 23) (hlen : a0.length = 2 ^ k)
    (ha : ∀ x ∈ a0, 0 ≤ x ∧ x < MOD) :
    ∀ i, i < 2 ^ k → load (ntt a0 (2 ^ k) 1 (rev_table k)) i =
      (∑ j in Finset.range (2 ^ k),
        load a0 j * (G ^ ((MOD - 1).toNat / 2 ^ k) % MOD) ^ (i * j)) % MOD := by
  intro i hi
  have hin := inField_of_mem ha (le_of_eq hlen.symm)
  obtain ⟨_, hin1, hv1⟩ := ntt_forward k hk a0 hlen hin
  apply eq_of_cast_eq (hin1 i hi) (emod_inField _)
  rw [hv1 i hi, cast_emod, Int.cast_sum]
  unfold dft
  apply Finset.sum_congr rfl
  intro j _
  have hexp : (MOD - 1).toNat = 998244352 := by decide
  rw [hexp]
  push_cast
  rw [cast_emod]
  push_cast
  unfold root
  simp only [if_true]

theorem ntt_forward_dft_witness :
    load (ntt [1, 2, 3, 4] (2 ^ 2) 1 (rev_table 2)) 1 =
      (∑ j in Finset.range (2 ^ 2),
        load [1, 2, 3, 4] j * (G ^ ((MOD - 1).toNat / 2 ^ 2) % MOD) ^ (1 * j)) % MOD :=
  ntt_forward_dft 2 [1, 2, 3, 4] (by norm_num) rfl (by decide) 1 (by norm_num)

theorem qpow_zero_exp (base : Int) : qpow base 0 = 1 := by
  simp [qpow, qpow_loop]

theorem qpow_int_exp (base exp : Int) (hb0 : 0 ≤ base) (hb : base ≤ 3037000499)
    (he0 : 0 ≤ exp) (he : exp < 2 ^ 63) :
    qpow base exp = base ^ exp.toNat % MOD ∧ InField (qpow base exp) ∧ qpow_inRange base exp := by
  have hcast : exp = ((exp.toNat : Nat) : Int) := (Int.toNat_of_nonneg he0).symm
  have hlt : exp.toNat < 2 ^ 63 := by omega
  have h := qpow_spec base exp.toNat hb0 hb hlt
  rw [← hcast] at h
  exact h

/-- C8: for every base in `[0, MOD)` and every exponent `0 ≤ exp < 2 ^ 63`,
`qpow(base, exp)` is `base ^ exp mod MOD`, a value in `[0, MOD)`, no product
formed on the way leaves the signed 64-bit range, and `qpow(base, 0) = 1`. -/
theorem qpow_field (base exp : Int) (hb : 0 ≤ base ∧ base < MOD)
    (he : 0 ≤ exp ∧ exp < 2 ^ 63) :
    qpow base exp = base ^ exp.toNat % MOD ∧
      (0 ≤ qpow base exp ∧ qpow base exp < MOD) ∧
      qpow_inRange base exp ∧ qpow base 0 = 1 := by
  obtain ⟨h1, h2, h3⟩ := qpow_int_exp base exp hb.1 (inField_le hb) he.1 he.2
  exact ⟨h1, h2, h3, qpow_zero_exp base⟩

theorem qpow_field_witness :
    qpow 3 5 = (3 : Int) ^ (5 : Int).toNat % MOD ∧
      (0 ≤ qpow 3 5 ∧ qpow 3 5 < MOD) ∧ qpow_inRange 3 5 ∧ qpow 3 0 = 1 :=
  qpow_field 3 5 (by decide) (by decide)

/-- C9, as stated, fails: `qpow` does not reduce its base on entry.  A negative
base yields a negative value (`qpow(-1, 1) = -1`, not `MOD - 1`), and a base
whose square leaves the 64-bit range yields a wrong residue
(`qpow(2 ^ 32, 2) = 0` and `qpow(3037000500, 2) < 0`). -/
theorem qpow_unreduced_base :
    qpow (-1) 1 = -1 ∧ (-1 : Int) ^ (1 : Int).toNat % MOD = 998244352 ∧
    qpow 4294967296 2 = 0 ∧ (4294967296 : Int) ^ (2 : Int).toNat % MOD = 932051910 ∧
    qpow 3037000500 2 = -320551763 ∧ (3037000500 : Int) ^ (2 : Int).toNat % MOD = 611500147 := by
  decide

/-- C9, amended: for every base with `0 ≤ base ≤ 3037000499` (the largest
value whose square fits a signed 64-bit integer; this covers `[0, MOD)` and
every non-negative `int`) and every exponent `0 ≤ exp < 2 ^ 63`,
`qpow(base, exp)` is `base ^ exp mod MOD`, a residue in `[0, MOD)`, and no
product formed on the way leaves the signed 64-bit range. -/
theorem qpow_wide_base (base exp : Int) (hb : 0 ≤ base ∧ base ≤ 3037000499)
    (he : 0 ≤ exp ∧ exp < 2 ^ 63) :
    qpow base exp = base ^ exp.toNat % MOD ∧
      (0 ≤ qpow base exp ∧ qpow base exp < MOD) ∧ qpow_inRange base exp :=
  qpow_int_exp base exp hb.1 hb.2 he.1 he.2

theorem qpow_wide_base_witness :
    qpow 1073741824 2 = (1073741824 : Int) ^ (2 : Int).toNat % MOD ∧
      (0 ≤ qpow 1073741824 2 ∧ qpow 1073741824 2 < MOD) ∧ qpow_inRange 1073741824 2 :=
  qpow_wide_base 1073741824 2 (by decide) (by decide)

/-- C10 at the failing input `limit = 8` with `r[0] = 4` on entry: `get_rev`
reads `r[0]` before it has written it, so the table it leaves is not the
bit-reversal table (entry 0 is `2`, entry 1 is `5`), and it differs from the
table it leaves on a zeroed buffer. -/
theorem get_rev_reads_stale_entry :
    get_rev 8 [4, 0, 0, 0, 0, 0, 0, 0] = [2, 5, 2, 6, 1, 5, 3, 7] ∧
    get_rev 8 [0, 0, 0, 0, 0, 0, 0, 0] = [0, 4, 2, 6, 1, 5, 3, 7] ∧
    (List.range 8).map (bitrev 3) = [0, 4, 2, 6, 1, 5, 3, 7] := by
  refine ⟨by decide, by decide, ?_⟩
  simp [bitrev, Finset.sum_range_succ, List.range_succ]

/-- C11: for `limit = 2 ^ k` (any `k` that fits an `int`, `k ≤ 30`) and the
table `r` that `get_rev(limit, r)` builds from a buffer that is zero on entry,
every `i < limit` has `0 ≤ r[i] < limit` and `r[r[i]] = i`. -/
theorem get_rev_involution (k i : Nat) (hk : k ≤ 30) (hi : i < 2 ^ k) :
    0 ≤ load (get_rev (2 ^ k) (List.replicate (2 ^ k) 0)) i ∧
    load (get_rev (2 ^ k) (List.replicate (2 ^ k) 0)) i < 2 ^ k ∧
    load (get_rev (2 ^ k) (List.replicate (2 ^ k) 0))
      (load (get_rev (2 ^ k) (List.replicate (2 ^ k) 0)) i).toNat = (i : Int) := by
  rw [get_rev_spec k hk _ (List.length_replicate _ _) (load_replicate _ _)]
  rw [load_rev_table k hi, Int.toNat_ofNat, load_rev_table k (bitrev_lt k i),
    bitrev_invol k i hi]
  refine ⟨by positivity, ?_, rfl⟩
  exact_mod_cast bitrev_lt k i

theorem get_rev_involution_witness :
    0 ≤ load (get_rev (2 ^ 3) (List.replicate (2 ^ 3) 0)) 3 ∧
    load (get_rev (2 ^ 3) (List.replicate (2 ^ 3) 0)) 3 < 2 ^ 3 ∧
    load (get_rev (2 ^ 3) (List.replicate (2 ^ 3) 0))
      (load (get_rev (2 ^ 3) (List.replicate (2 ^ 3) 0)) 3).toNat = ((3 : Nat) : Int) :=
  get_rev_involution 3 3 (by norm_num) (by norm_num)

theorem bitrev_eq_shifts (k i : Nat) :
    bitrev k i = ∑ b in Finset.range k, ((i >>> b) &&& 1) <<< (k - 1 - b) := by
  unfold bitrev
  apply Finset.sum_congr rfl
  intro b _
  rw [Nat.shiftLeft_eq, Nat.shiftRight_eq_div_pow, Nat.and_one_is_mod]

/-- C15: for `limit = 2 ^ k` with `1 ≤ k` (and `k ≤ 30`, an `int`) and every
buffer `r` with `r[0] = 0` on entry, after `get_rev(limit, r)` every `i < limit`
has `r[i]` equal to the sum over `b < k` of `((i >> b) & 1) << (k - 1 - b)`, and
the final table satisfies the recurrence of the loop,
`r[i] = (r[i >> 1] >> 1) | ((i & 1) << (k - 1))`. -/
theorem get_rev_recurrence (k i : Nat) (r : List Int) (hk1 : 1 ≤ k) (hk : k ≤ 30)
    (hlen : r.length = 2 ^ k) (h0 : load r 0 = 0) (hi : i < 2 ^ k) :
    load (get_rev (2 ^ k) r) i =
      ((∑ b in Finset.range k, ((i >>> b) &&& 1) <<< (k - 1 - b) : Nat) : Int) ∧
    load (get_rev (2 ^ k) r) i =
      Int.lor (load (get_rev (2 ^ k) r) (i / 2) >>> (1 : Nat))
        (wrap32 (((i % 2 : Nat) : Int) * 2 ^ (k - 1))) := by
  rw [get_rev_spec k hk r hlen h0]
  have hhalf : i / 2 < 2 ^ k := lt_of_le_of_lt (Nat.div_le_self _ _) hi
  rw [load_rev_table k hi, load_rev_table k hhalf]
  refine ⟨by rw [bitrev_eq_shifts], ?_⟩
  obtain ⟨k1, rfl⟩ : ∃ k1, k = k1 + 1 := ⟨k - 1, by omega⟩
  exact (get_rev_value k1 i hk hi).symm

theorem get_rev_recurrence_witness :
    load (get_rev (2 ^ 3) [0, 9, 9, 9, 9, 9, 9, 9]) 6 =
      ((∑ b in Finset.range 3, ((6 >>> b) &&& 1) <<< (3 - 1 - b) : Nat) : Int) ∧
    load (get_rev (2 ^ 3) [0, 9, 9, 9, 9, 9, 9, 9]) 6 =
      Int.lor (load (get_rev (2 ^ 3) [0, 9, 9, 9, 9, 9, 9, 9]) (6 / 2) >>> (1 : Nat))
        (wrap32 (((6 % 2 : Nat) : Int) * 2 ^ (3 - 1))) :=
  get_rev_recurrence 3 6 [0, 9, 9, 9, 9, 9, 9, 9] (by norm_num) (by norm_num) rfl rfl
    (by norm_num)

/-- C18: for an array `a0` of `limit` entries and a table `r` that is an
involutive permutation of `[0, limit)`, the first loop of `ntt` (swap `a[i]` and
`a[r[i]]` when `i < r[i]`) leaves `a[i] = a0[r[i]]` for every `i < limit`. -/
theorem ntt_permute_involutive (limit i : Nat) (a0 r : List Int) (hlen : a0.length = limit)
    (hr : ∀ j, j < limit →
      0 ≤ load r j ∧ load r j < limit ∧ load r (load r j).toNat = (j : Int))
    (hi : i < limit) :
    load ((List.range limit).foldl (ntt_swap r) a0) i = load a0 (load r i).toNat := by
  have h1 : ∀ j, j < limit → load r j = (((load r j).toNat : Nat) : Int) :=
    fun j hj => (Int.toNat_of_nonneg (hr j hj).1).symm
  have h2 : ∀ j, j < limit → (load r j).toNat < limit := by
    intro j hj
    have := (hr j hj).2.1
    have := (hr j hj).1
    omega
  have h3 : ∀ j, j < limit → (load r (load r j).toNat).toNat = j := by
    intro j hj
    rw [(hr j hj).2.2, Int.toNat_ofNat]
  exact (ntt_swap_spec limit (fun j => (load r j).toNat) r a0 h1 h2 h3 hlen).2 i hi

theorem ntt_permute_involutive_witness :
    load ((List.range 4).foldl (ntt_swap [0, 2, 1, 3]) [10, 11, 12, 13]) 1 =
      load [10, 11, 12, 13] (load [0, 2, 1, 3] 1).toNat :=
  ntt_permute_involutive 4 1 [10, 11, 12, 13] [0, 2, 1, 3] rfl (by decide) (by norm_num)

/-! ## The inverse factor and the block roots for every `int` length -/

theorem inv_spec_wide (k : Nat) (hk : k ≤ 30) :
    InField (qpow (((2 ^ k : Nat)) : Int) (MOD - 2)) ∧
    qpow_inRange (((2 ^ k : Nat)) : Int) (MOD - 2) ∧
    ((2 : F)) ^ k * ((qpow (((2 ^ k : Nat)) : Int) (MOD - 2) : Int) : F) = 1 := by
  have he : (MOD - 2 : Int) = ((998244351 : Nat) : Int) := by decide
  have hb0 : (0 : Int) ≤ (((2 ^ k : Nat)) : Int) := by positivity
  have hb1 : (((2 ^ k : Nat)) : Int) ≤ 3037000499 := by
    have h1 : (2 : Nat) ^ k ≤ 2 ^ 30 := pow_le_pow_right₀ (by norm_num) hk
    have h2 : (((2 ^ k : Nat)) : Int) ≤ ((2 ^ 30 : Nat) : Int) := by exact_mod_cast h1
    have h3 : ((2 ^ 30 : Nat) : Int) ≤ 3037000499 := by norm_num
    exact le_trans h2 h3
  rw [he]
  have hs := qpow_spec _ 998244351 hb0 hb1 (by norm_num)
  refine ⟨hs.2.1, hs.2.2, ?_⟩
  rw [qpow_cast _ _ hb0 hb1 (by norm_num)]
  push_cast
  have h4 : ((2 : F)) ^ k * (((2 : F)) ^ k) ^ 998244351 = (((2 : F)) ^ 998244352) ^ k := by
    rw [← pow_mul, ← pow_mul, ← pow_add]
    congr 1
    ring
  rw [h4, two_pow_full, one_pow]

theorem inField_one : InField 1 := ⟨by decide, by decide⟩

/-- C17: for `limit = 2 ^ k` with `k ≤ 30`, the factor
`inv = qpow(limit, MOD - 2)` satisfies `(limit * inv) mod MOD = 1`, so the
scaling statement `a[i] = (a[i] * inv) % MOD` divides a field element by
`limit`: multiplying the stored value by `limit` gives the old value back. -/
theorem ntt_inv_factor (k : Nat) (x : Int) (hk : k ≤ 30) (hx : 0 ≤ x ∧ x < MOD) :
    ((((2 ^ k : Nat)) : Int) * qpow (((2 ^ k : Nat)) : Int) (MOD - 2)) % MOD = 1 ∧
    ((((2 ^ k : Nat)) : Int) *
      (wrap64 (x * qpow (((2 ^ k : Nat)) : Int) (MOD - 2))).tmod MOD) % MOD = x := by
  obtain ⟨h1, _, h3⟩ := inv_spec_wide k hk
  generalize qpow (((2 ^ k : Nat)) : Int) (MOD - 2) = inv at h1 h3
  have hm := mulmod_field hx h1
  constructor
  · apply eq_of_cast_eq (emod_inField _) inField_one
    rw [cast_emod]
    push_cast
    rw [h3]
  · apply eq_of_cast_eq (emod_inField _) hx
    rw [cast_emod]
    push_cast
    rw [hm.2, mul_comm (x : F), ← mul_assoc, h3, one_mul]

theorem ntt_inv_factor_witness :
    ((((2 ^ 30 : Nat)) : Int) * qpow (((2 ^ 30 : Nat)) : Int) (MOD - 2)) % MOD = 1 ∧
    ((((2 ^ 30 : Nat)) : Int) *
      (wrap64 (5 * qpow (((2 ^ 30 : Nat)) : Int) (MOD - 2))).tmod MOD) % MOD = 5 :=
  ntt_inv_factor 30 5 (by norm_num) (by decide)

theorem inField_modulus_pred : InField (MOD - 1) := ⟨by decide, by decide⟩

set_option maxRecDepth 100000 in
theorem qpow_G_59 : qpow G 59 = 3748461 := by decide

set_option maxRecDepth 100000 in
theorem qpow_wn_24 : qpow 3748461 16777216 = 708756820 := by decide

/-- C16, as stated, fails for a length above `2 ^ 23`: for `limit = 2 ^ 24` and
`mid = 2 ^ 23` the division `(MOD - 1) / (2 * mid)` is not exact (it leaves the
remainder `2 ^ 23`) and the block root `wn = qpow(G, 59)` has
`wn ^ (2 * mid) mod MOD = 708756820`, not `1`. -/
theorem block_root_fails_above_2_pow_23 :
    (MOD - 1) % ((2 * 2 ^ 23 : Nat) : Int) = 8388608 ∧
    qpow G ((MOD - 1) / ((2 * 2 ^ 23 : Nat) : Int)) ^ (2 * 2 ^ 23) % MOD = 708756820 := by
  refine ⟨by decide, ?_⟩
  have he : (MOD - 1) / ((2 * 2 ^ 23 : Nat) : Int) = 59 := by decide
  rw [he, qpow_G_59]
  have h := (qpow_spec 3748461 16777216 (by norm_num) (by norm_num) (by norm_num)).1
  have h2 : qpow 3748461 ((16777216 : Nat) : Int) = 708756820 := qpow_wn_24
  rw [h2] at h
  have h3 : 2 * 2 ^ 23 = 16777216 := by norm_num
  rw [h3]
  exact h.symm

/-- C16, amended: for a power-of-two length `limit = 2 ^ k` with `1 ≤ k ≤ 23`,
every half-width `mid = 2 ^ j < limit` and both directions, the division
`(MOD - 1) / (2 * mid)` is exact and the block root
`wn = qpow(type == 1 ? G : G_INV, (MOD - 1) / (2 * mid))` is a primitive
`(2 * mid)`-th root of unity: `wn ^ (2 * mid) mod MOD = 1` and
`wn ^ mid mod MOD = MOD - 1`. -/
theorem ntt_block_root (type : Int) (k j : Nat) (hk : k ≤ 23) (hj : j < k) :
    (MOD - 1) % ((2 * 2 ^ j : Nat) : Int) = 0 ∧
    qpow (if type = 1 then G else G_INV) ((MOD - 1) / ((2 * 2 ^ j : Nat) : Int)) ^ (2 * 2 ^ j)
      % MOD = 1 ∧
    qpow (if type = 1 then G else G_INV) ((MOD - 1) / ((2 * 2 ^ j : Nat) : Int)) ^ (2 ^ j)
      % MOD = MOD - 1 := by
  obtain ⟨_, hw⟩ := wn_spec type j
  generalize qpow (if type = 1 then G else G_INV) ((MOD - 1) / ((2 * 2 ^ j : Nat) : Int)) = wn
    at hw
  have hhalf : ((wn : Int) : F) ^ (2 ^ j) = -1 := by
    rw [hw]; exact root_half type j (by omega)
  refine ⟨?_, ?_, ?_⟩
  · have h1 : (MOD - 1 : Int) = ((998244352 : Nat) : Int) := by decide
    rw [h1, ← Int.natCast_mod]
    have h2 : 998244352 % (2 * 2 ^ j) = 0 := by
      apply Nat.mod_eq_zero_of_dvd
      have h3 : 2 * 2 ^ j = 2 ^ (j + 1) := by rw [pow_succ']
      rw [h3]
      have h4 : (2 : Nat) ^ (j + 1) ∣ 2 ^ 23 := pow_dvd_pow 2 (by omega)
      exact Dvd.dvd.trans h4 ⟨119, by norm_num⟩
    rw [h2]; rfl
  · apply eq_of_cast_eq (emod_inField _) inField_one
    rw [cast_emod]
    push_cast
    rw [mul_comm 2 (2 ^ j), pow_mul, hhalf]
    norm_num
  · apply eq_of_cast_eq (emod_inField _) inField_modulus_pred
    rw [cast_emod]
    push_cast
    rw [hhalf]
    have h5 : (((MOD - 1 : Int)) : F) = -1 := by
      have h6 : (MOD - 1 : Int) = 998244352 := by decide
      rw [h6]; exact cast_modulus_pred
    push_cast at h5
    rw [h5]

theorem ntt_block_root_witness :
    (MOD - 1) % ((2 * 2 ^ 22 : Nat) : Int) = 0 ∧
    qpow (if (1 : Int) = 1 then G else G_INV) ((MOD - 1) / ((2 * 2 ^ 22 : Nat) : Int))
      ^ (2 * 2 ^ 22) % MOD = 1 ∧
    qpow (if (1 : Int) = 1 then G else G_INV) ((MOD - 1) / ((2 * 2 ^ 22 : Nat) : Int))
      ^ (2 ^ 22) % MOD = MOD - 1 :=
  ntt_block_root 1 23 22 (by norm_num) (by norm_num)

/-! ## The search for `limit` beyond `2 ^ 30` -/

theorem limit_loop_zero (s : Int) (hs : 0 ≤ s) : ∀ fuel, limit_loop fuel 0 s = none := by
  intro fuel
  induction fuel with
  | zero => rfl
  | succ fuel ih =>
    unfold limit_loop
    have h : wrap32 (0 * 2) = 0 := by decide
    rw [if_pos hs, h]
    exact ih

theorem limit_loop_min (fuel : Nat) : limit_loop fuel (-2147483648) 1073741824 = none := by
  cases fuel with
  | zero => rfl
  | succ fuel =>
    unfold limit_loop
    have h : wrap32 (-2147483648 * 2) = 0 := by decide
    rw [if_pos (by decide), h]
    exact limit_loop_zero _ (by decide) fuel

theorem limit_loop_stuck : ∀ (d j : Nat), j + d = 30 → ∀ fuel,
    limit_loop fuel ((2 : Int) ^ j) 1073741824 = none := by
  intro d
  induction d with
  | zero =>
    intro j hj fuel
    have hj30 : j = 30 := by omega
    subst hj30
    cases fuel with
    | zero => rfl
    | succ fuel =>
      unfold limit_loop
      have h : wrap32 ((2 : Int) ^ 30 * 2) = -2147483648 := by decide
      rw [if_pos (by decide), h]
      exact limit_loop_min fuel
  | succ d ih =>
    intro j hj fuel
    cases fuel with
    | zero => rfl
    | succ fuel =>
      unfold limit_loop
      have h1 : (2 : Int) ^ j ≤ 1073741824 := by
        have : (2 : Int) ^ j ≤ 2 ^ 30 := pow_le_pow_right₀ (by norm_num) (by omega)
        simpa using this
      have h2 : wrap32 ((2 : Int) ^ j * 2) = (2 : Int) ^ (j + 1) := by
        rw [← pow_succ]
        apply wrap32_of_lt (by positivity)
        exact pow_lt_pow_right₀ (by norm_num) (by omega)
      rw [if_pos h1, h2]
      exact ih (j + 1) (by omega) fuel

/-- C19, as stated, fails.  For `degA = 2 ^ 30`, `degB = 0` the loop never
exits, whatever the number of rounds: `limit` doubles to `2 ^ 30`, wraps to
`-2 ^ 31`, then to `0`, and stays `0 ≤ degA + degB`.  For
`degA = degB = 2 ^ 30` the 32-bit sum wraps to `-2 ^ 31` and the loop exits at
once with `limit = 1`, which is not above the sum `2 ^ 31`. -/
theorem limit_search_overflow :
    (¬ ∃ fuel limit, limit_loop fuel 1 (wrap32 (1073741824 + 0)) = some limit) ∧
    limit_loop 1 1 (wrap32 (1073741824 + 1073741824)) = some 1 := by
  refine ⟨?_, by decide⟩
  rintro ⟨fuel, limit, h⟩
  have hw : wrap32 (1073741824 + 0) = 1073741824 := by decide
  rw [hw] at h
  have h2 := limit_loop_stuck 30 0 (by norm_num) fuel
  rw [pow_zero] at h2
  rw [h2] at h
  exact Option.noConfusion h

/-- C19, amended: for `int` degrees `degA, degB ≥ 0` with `degA + degB < 2 ^ 30`
the loop `while (limit <= degA + degB) limit <<= 1` exits within 31 rounds, and
on exit `limit` is a positive power of two, at most `2 ^ 30`, strictly greater
than `degA + degB`. -/
theorem limit_search_terminates (degA degB fuel : Nat) (hdeg : degA + degB < 2 ^ 30)
    (hfuel : 31 ≤ fuel) :
    ∃ k, k ≤ 30 ∧
      limit_loop fuel 1 (wrap32 ((degA : Int) + (degB : Int))) = some ((2 : Int) ^ k) ∧
      degA + degB < 2 ^ k := by
  have hk : Nat.size (degA + degB) ≤ 30 := Nat.size_le.mpr hdeg
  have h1 : wrap32 ((degA : Int) + (degB : Int)) = (((degA + degB : Nat)) : Int) := by
    have h0 : (0 : Int) ≤ (degA : Int) + (degB : Int) := by positivity
    have h2 : (degA : Int) + (degB : Int) < 2 ^ 30 := by exact_mod_cast hdeg
    rw [wrap32_of_lt h0 (by omega)]
    push_cast
    rfl
  rw [h1]
  have h3 := limit_loop_spec (degA + degB) hdeg fuel 0 (by omega) (by omega)
  rw [pow_zero] at h3
  exact ⟨Nat.size (degA + degB), hk, h3, (size_bounds _).1⟩

theorem limit_search_terminates_witness :
    ∃ k, k ≤ 30 ∧
      limit_loop 31 1 (wrap32 (((1073741823 : Nat) : Int) + ((0 : Nat) : Int))) =
        some ((2 : Int) ^ k) ∧
      1073741823 + 0 < 2 ^ k :=
  limit_search_terminates 1073741823 0 31 (by norm_num) (by norm_num)

/-! ## Multiplying by the constant polynomial `1` -/

theorem schoolbook_one (A : List Int) (degA i : Nat) (hi : i ≤ degA) :
    schoolbook A degA [1] 0 i = load A i := by
  unfold schoolbook
  rw [Finset.sum_eq_single i]
  · rw [if_pos ⟨le_refl _, by omega⟩, Nat.sub_self]
    simp [load]
  · intro j _ hji
    rw [if_neg (by omega)]
  · intro h
    exact absurd (Finset.mem_range.mpr (by omega)) h

/-- C12: for `degA < 2 ^ 23` and a sequence `A` of `degA + 1` entries in
`[0, MOD)`, with the table buffer reading zero at its first entry,
`poly_multiply(A, degA, [1], 0, result)` returns the smallest power of two
strictly greater than `degA` and, when the output buffer has room for `limit`
entries, leaves `result[i] = A[i]` for `i ≤ degA` and `result[i] = 0` for
`degA < i < limit`. -/
theorem poly_multiply_one (A result : List Int) (degA : Nat) (heap : Nat → Int)
    (hdeg : degA < 2 ^ 23) (hlenA : A.length = degA + 1)
    (hA : ∀ x ∈ A, 0 ≤ x ∧ x < MOD) (hheap : heap 0 = 0) :
    ∃ k res, poly_multiply A degA [1] 0 result heap = some ((2 : Int) ^ k, res) ∧
      degA < 2 ^ k ∧ (k = 0 ∨ 2 ^ (k - 1) ≤ degA) ∧
      (2 ^ k ≤ result.length →
        (∀ i, i ≤ degA → load res i = load A i) ∧
        ∀ i, degA < i → i < 2 ^ k → load res i = 0) := by
  have hinA := inField_of_mem hA (le_of_eq hlenA.symm)
  obtain ⟨a4, _, hv, heq⟩ := poly_multiply_spec A degA [1] 0 result heap (by omega)
    (fun i hi => hinA i (by omega))
    (fun i hi => @inField_of_mem [1] (by decide) 1 (le_refl _) i (by omega)) hheap
  rw [Nat.add_zero] at hv heq
  refine ⟨Nat.size degA, _, heq, (size_bounds _).1, (size_bounds _).2, fun hcap => ⟨?_, ?_⟩⟩
  · intro i hi
    have hlt : i < 2 ^ Nat.size degA := lt_of_le_of_lt hi (size_bounds _).1
    rw [(copy_spec a4 result _ hcap).2 i, if_pos hlt, hv i hlt, schoolbook_one A degA i hi]
    have := hinA i (by omega)
    exact Int.emod_eq_of_lt this.1 this.2
  · intro i hi hlt
    rw [(copy_spec a4 result _ hcap).2 i, if_pos hlt, hv i hlt,
      schoolbook_high _ _ _ _ _ (by omega)]
    rfl

theorem poly_multiply_one_witness :
    ∃ k res, poly_multiply [5, 6, 7] 2 [1] 0 (List.replicate 4 9) (fun _ => 0) =
        some ((2 : Int) ^ k, res) ∧
      2 < 2 ^ k ∧ (k = 0 ∨ 2 ^ (k - 1) ≤ 2) ∧
      (2 ^ k ≤ (List.replicate 4 (9 : Int)).length →
        (∀ i, i ≤ 2 → load res i = load [5, 6, 7] i) ∧
        ∀ i, 2 < i → i < 2 ^ k → load res i = 0) :=
  poly_multiply_one [5, 6, 7] (List.replicate 4 9) 2 (fun _ => 0) (by norm_num) rfl
    (by decide) rfl

/-! ## Properties that every loop of `ntt` preserves -/

/-- Induction over a counted loop. -/
theorem foldl_range_invariant {β : Type} (P : β → Prop) (body : β → Nat → β) (n : Nat)
    (hstep : ∀ s i, i < n → P s → P (body s i)) (init : β) (h0 : P init) :
    ∀ c, c ≤ n → P ((List.range c).foldl body init) := by
  intro c
  induction c with
  | zero => intro _; exact h0
  | succ c ih =>
    intro hc
    rw [foldl_range_succ]
    exact hstep _ c (by omega) (ih (by omega))

theorem length_ntt_swap (r a : List Int) (i : Nat) : (ntt_swap r a i).length = a.length := by
  unfold ntt_swap
  split_ifs
  · simp only [length_store]
  · rfl

theorem length_ntt_butterfly (wn : Int) (mid j : Nat) (s : List Int × Int) (k : Nat) :
    (ntt_butterfly wn mid j s k).1.length = s.1.length := by
  unfold ntt_butterfly
  simp only [length_store]

theorem length_ntt_block (wn : Int) (mid : Nat) (a : List Int) (j : Nat) :
    (ntt_block wn mid a j).length = a.length := by
  unfold ntt_block
  exact foldl_range_invariant (fun s => s.1.length = a.length) (ntt_butterfly wn mid j) mid
    (fun s k _ hs => by simp only [length_ntt_butterfly]; exact hs) (a, 1) rfl mid (le_refl _)

theorem length_ntt_blocks (wn : Int) (mid limit : Nat) : ∀ (fuel j : Nat) (a : List Int),
    (ntt_blocks wn mid limit fuel j a).length = a.length := by
  intro fuel
  induction fuel with
  | zero => intro j a; rfl
  | succ fuel ih =>
    intro j a
    unfold ntt_blocks
    split_ifs
    · rw [ih, length_ntt_block]
    · rfl

theorem length_ntt_passes (type : Int) (limit : Nat) : ∀ (fuel mid : Nat) (a : List Int),
    (ntt_passes type limit fuel mid a).length = a.length := by
  intro fuel
  induction fuel with
  | zero => intro mid a; rfl
  | succ fuel ih =>
    intro mid a
    unfold ntt_passes
    by_cases hm : mid < limit
    · rw [if_pos hm]
      simp only []
      rw [ih, length_ntt_blocks]
    · rw [if_neg hm]

theorem length_ntt_scale (inv : Int) (a : List Int) (i : Nat) :
    (ntt_scale inv a i).length = a.length := by
  unfold ntt_scale
  rw [length_store]

/-- The function `ntt` never changes the length of its array. -/
theorem length_ntt (a : List Int) (limit : Nat) (type : Int) (r : List Int) :
    (ntt a limit type r).length = a.length := by
  have h1 : ((List.range limit).foldl (ntt_swap r) a).length = a.length :=
    foldl_range_invariant (fun s => s.length = a.length) (ntt_swap r) limit
      (fun s i _ hs => by simp only [length_ntt_swap]; exact hs) a rfl limit (le_refl _)
  have h2 : (ntt_passes type limit 32 1 ((List.range limit).foldl (ntt_swap r) a)).length =
      a.length := by
    rw [length_ntt_passes, h1]
  unfold ntt
  simp only []
  by_cases ht : type = -1
  · rw [if_pos ht]
    exact foldl_range_invariant (fun s => s.length = a.length) (ntt_scale
      (qpow (limit : Int) (MOD - 2))) limit
      (fun s i _ hs => by simp only [length_ntt_scale]; exact hs)
      (ntt_passes type limit 32 1 ((List.range limit).foldl (ntt_swap r) a))
      h2 limit (le_refl _)
  · rw [if_neg ht]
    exact h2

/-! ## A zero array stays zero -/

theorem load_store_zero {a : List Int} (h : ∀ i, load a i = 0) (i : Nat) :
    ∀ j, load (store a i 0) j = 0 := by
  intro j
  rw [load_store]
  split_ifs
  · rfl
  · exact h j

theorem ntt_swap_zero (r a : List Int) (i : Nat) (h : ∀ j, load a j = 0) :
    ∀ j, load (ntt_swap r a i) j = 0 := by
  unfold ntt_swap
  split_ifs
  · simp only [h]
    exact load_store_zero (load_store_zero h _) _
  · exact h

theorem ntt_butterfly_zero (wn : Int) (mid j : Nat) (s : List Int × Int) (k : Nat)
    (h : ∀ i, load s.1 i = 0) : ∀ i, load (ntt_butterfly wn mid j s k).1 i = 0 := by
  unfold ntt_butterfly
  simp only [h, mul_zero, add_zero, sub_zero]
  have h1 : (wrap64 0).tmod MOD = 0 := by decide
  have h2 : (wrap64 (wrap64 (0 - (wrap64 0).tmod MOD) + MOD)).tmod MOD = 0 := by decide
  have h3 : (wrap64 (0 + (wrap64 0).tmod MOD)).tmod MOD = 0 := by decide
  rw [h2, h3]
  exact load_store_zero (load_store_zero h _) _

theorem ntt_block_zero (wn : Int) (mid : Nat) (a : List Int) (j : Nat)
    (h : ∀ i, load a i = 0) : ∀ i, load (ntt_block wn mid a j) i = 0 := by
  unfold ntt_block
  exact foldl_range_invariant (fun s => ∀ i, load s.1 i = 0) (ntt_butterfly wn mid j) mid
    (fun s k _ hs => ntt_butterfly_zero wn mid j s k hs) (a, 1) h mid (le_refl _)

theorem ntt_blocks_zero (wn : Int) (mid limit : Nat) : ∀ (fuel j : Nat) (a : List Int),
    (∀ i, load a i = 0) → ∀ i, load (ntt_blocks wn mid limit fuel j a) i = 0 := by
  intro fuel
  induction fuel with
  | zero => intro j a h; exact h
  | succ fuel ih =>
    intro j a h
    unfold ntt_blocks
    split_ifs
    · exact ih _ _ (ntt_block_zero wn mid a j h)
    · exact h

theorem ntt_passes_zero (type : Int) (limit : Nat) : ∀ (fuel mid : Nat) (a : List Int),
    (∀ i, load a i = 0) → ∀ i, load (ntt_passes type limit fuel mid a) i = 0 := by
  intro fuel
  induction fuel with
  | zero => intro mid a h; exact h
  | succ fuel ih =>
    intro mid a h
    unfold ntt_passes
    by_cases hm : mid < limit
    · rw [if_pos hm]
      simp only []
      exact ih _ _ (ntt_blocks_zero _ mid limit limit 0 a h)
    · rw [if_neg hm]
      exact h

theorem ntt_scale_zero (inv : Int) (a : List Int) (i : Nat) (h : ∀ j, load a j = 0) :
    ∀ j, load (ntt_scale inv a i) j = 0 := by
  unfold ntt_scale
  rw [h, zero_mul]
  have h1 : (wrap64 0).tmod MOD = 0 := by decide
  rw [h1]
  exact load_store_zero h _

/-- On an array of zeros `ntt` leaves an array of zeros, whatever the length,
the direction and the table. -/
theorem ntt_zero (a : List Int) (limit : Nat) (type : Int) (r : List Int)
    (h : ∀ i, load a i = 0) : ∀ i, load (ntt a limit type r) i = 0 := by
  have h1 : ∀ i, load ((List.range limit).foldl (ntt_swap r) a) i = 0 :=
    foldl_range_invariant (fun s => ∀ i, load s i = 0) (ntt_swap r) limit
      (fun s i _ hs => ntt_swap_zero r s i hs) a h limit (le_refl _)
  have h2 := ntt_passes_zero type limit 32 1 _ h1
  unfold ntt
  simp only []
  by_cases ht : type = -1
  · rw [if_pos ht]
    exact foldl_range_invariant (fun s => ∀ i, load s i = 0)
      (ntt_scale (qpow (limit : Int) (MOD - 2))) limit
      (fun s i _ hs => ntt_scale_zero _ s i hs) _ h2 limit (le_refl _)
  · rw [if_neg ht]
    exact h2

/-! ## `poly_multiply` on arbitrary operands -/

theorem poly_multiply_unfold (A : List Int) (degA : Nat) (B : List Int) (degB : Nat)
    (result : List Int) (heap : Nat → Int) (hdeg : degA + degB < 2 ^ 30) :
    poly_multiply A degA B degB result heap =
      some (poly_multiply_body ((2 : Int) ^ Nat.size (degA + degB)) A degA B degB result heap) := by
  have hlim : limit_loop 64 1 (wrap32 ((degA : Int) + (degB : Int))) =
      some ((2 : Int) ^ Nat.size (degA + degB)) := by
    have := limit_search (degA + degB) hdeg
    push_cast at this
    exact this
  unfold poly_multiply
  rw [hlim]
  simp only [Option.map_some']

/-- The array after `calloc` and the copy loop, for arbitrary content. -/
theorem length_padded (A : List Int) (deg n : Nat) (hdn : deg < n) :
    ((List.range (deg + 1)).foldl (copy_body A) (List.replicate n 0)).length = n := by
  have h := (map_loop (fun i _ => load A i) (copy_body A) (fun _ _ => rfl)
    (List.replicate n 0) (deg + 1) (by rw [List.length_replicate]; omega)).1
  rw [h, List.length_replicate]

theorem load_singleton_zero (i : Nat) : load [0] i = 0 := by
  cases i with
  | zero => rfl
  | succ i => rfl

theorem padded_zero (n : Nat) :
    ∀ i, load ((List.range (0 + 1)).foldl (copy_body [0]) (List.replicate n 0)) i = 0 := by
  apply foldl_range_invariant (fun s => ∀ i, load s i = 0) (copy_body [0]) (0 + 1)
    _ _ (load_replicate n) (0 + 1) (le_refl _)
  intro s i _ hs
  unfold copy_body
  rw [load_singleton_zero]
  exact load_store_zero hs i

/-- The pointwise product with an array of zeros, on either side. -/
theorem pointwise_zero (a b : List Int) (n : Nat) (hn : n = a.length)
    (h : (∀ i, load a i = 0) ∨ (∀ i, load b i = 0)) :
    ∀ i, load ((List.range n).foldl (pointwise_body b) a) i = 0 := by
  intro i
  have hv := (map_loop (fun i x => (wrap64 (x * load b i)).tmod MOD) (pointwise_body b)
    (fun _ _ => rfl) a n (le_of_eq hn)).2 i
  rw [hv]
  have h1 : (wrap64 0).tmod MOD = 0 := by decide
  split_ifs with hi
  · rcases h with h | h
    · rw [h, zero_mul, h1]
    · rw [h, mul_zero, h1]
  · exact load_of_length_le (by omega)

/-- C13: for `degA < 2 ^ 30` and any sequence `A`,
`poly_multiply(A, degA, [0], 0, result)` and the call with the operands swapped
return the same `limit` and, when the output buffer has room for `limit`
entries, leave `result[i] = 0` for every `i < limit`. -/
theorem poly_multiply_zero (A res1 res2 : List Int) (degA : Nat) (heap : Nat → Int)
    (hdeg : degA < 2 ^ 30) :
    ∃ limit r1 r2, poly_multiply A degA [0] 0 res1 heap = some (limit, r1) ∧
      poly_multiply [0] 0 A degA res2 heap = some (limit, r2) ∧
      (limit.toNat ≤ res1.length → ∀ i : Nat, (i : Int) < limit → load r1 i = 0) ∧
      (limit.toNat ≤ res2.length → ∀ i : Nat, (i : Int) < limit → load r2 i = 0) := by
  rw [poly_multiply_unfold A degA [0] 0 res1 heap (by omega),
    poly_multiply_unfold [0] 0 A degA res2 heap (by omega), Nat.add_zero, Nat.zero_add]
  generalize hk : Nat.size degA = k
  have hn : degA < 2 ^ k := by rw [← hk]; exact (size_bounds _).1
  unfold poly_multiply_body
  simp only [toNat_two_pow]
  generalize get_rev (2 ^ k) ((List.range (2 ^ k)).map heap) = r
  have hlA := length_padded A degA (2 ^ k) hn
  have hlt : ∀ i : Nat, (i : Int) < (2 : Int) ^ k → i < 2 ^ k := by
    intro i hi
    have : (i : Int) < (((2 ^ k : Nat)) : Int) := by push_cast; exact hi
    exact_mod_cast this
  refine ⟨_, _, _, rfl, rfl, fun hcap i hi => ?_, fun hcap i hi => ?_⟩
  · rw [toNat_two_pow] at hcap
    rw [(copy_spec _ res1 _ hcap).2 i, if_pos (hlt i hi)]
    apply ntt_zero
    apply pointwise_zero _ _ _ (by rw [length_ntt, hlA])
    exact Or.inr (ntt_zero _ _ _ _ (padded_zero _))
  · rw [toNat_two_pow] at hcap
    rw [(copy_spec _ res2 _ hcap).2 i, if_pos (hlt i hi)]
    apply ntt_zero
    apply pointwise_zero _ _ _
      (by rw [length_ntt, length_padded [0] 0 (2 ^ k) (by positivity)])
    exact Or.inl (ntt_zero _ _ _ _ (padded_zero _))

theorem poly_multiply_zero_witness :
    ∃ limit r1 r2, poly_multiply [1, 2, 3] 2 [0] 0 [9, 9, 9, 9] (fun _ => 0) =
        some (limit, r1) ∧
      poly_multiply [0] 0 [1, 2, 3] 2 [8, 8, 8, 8] (fun _ => 0) = some (limit, r2) ∧
      (limit.toNat ≤ [9, 9, 9, (9 : Int)].length →
        ∀ i : Nat, (i : Int) < limit → load r1 i = 0) ∧
      (limit.toNat ≤ [8, 8, 8, (8 : Int)].length →
        ∀ i : Nat, (i : Int) < limit → load r2 i = 0) :=
  poly_multiply_zero [1, 2, 3] [9, 9, 9, 9] [8, 8, 8, 8] 2 (fun _ => 0) (by norm_num)

theorem pointwise_comm (a b : List Int) (n : Nat) (ha : a.length = n) (hb : b.length = n) :
    (List.range n).foldl (pointwise_body b) a = (List.range n).foldl (pointwise_body a) b := by
  obtain ⟨hl1, hv1⟩ := map_loop (fun i x => (wrap64 (x * load b i)).tmod MOD) (pointwise_body b)
    (fun _ _ => rfl) a n (le_of_eq ha.symm)
  obtain ⟨hl2, hv2⟩ := map_loop (fun i x => (wrap64 (x * load a i)).tmod MOD) (pointwise_body a)
    (fun _ _ => rfl) b n (le_of_eq hb.symm)
  apply list_ext_load (by rw [hl1, hl2, ha, hb])
  intro i hi
  rw [hl1, ha] at hi
  rw [hv1 i, hv2 i, if_pos hi, if_pos hi, mul_comm]

/-- C20: for `degA + degB < 2 ^ 30` and any sequences `A` and `B`,
`poly_multiply(A, degA, B, degB, res1)` and `poly_multiply(B, degB, A, degA, res2)`,
run with the same content of the table buffer, return the same `limit` and,
when both output buffers have room for `limit` entries, leave
`res1[i] = res2[i]` for every `i < limit`. -/
theorem poly_multiply_comm (A B res1 res2 : List Int) (degA degB : Nat) (heap : Nat → Int)
    (hdeg : degA + degB < 2 ^ 30) :
    ∃ limit r1 r2, poly_multiply A degA B degB res1 heap = some (limit, r1) ∧
      poly_multiply B degB A degA res2 heap = some (limit, r2) ∧
      (limit.toNat ≤ res1.length → limit.toNat ≤ res2.length →
        ∀ i : Nat, (i : Int) < limit → load r1 i = load r2 i) := by
  rw [poly_multiply_unfold A degA B degB res1 heap hdeg,
    poly_multiply_unfold B degB A degA res2 heap (by omega), Nat.add_comm degB degA]
  generalize hk : Nat.size (degA + degB) = k
  have hn : degA + degB < 2 ^ k := by rw [← hk]; exact (size_bounds _).1
  unfold poly_multiply_body
  simp only [toNat_two_pow]
  generalize get_rev (2 ^ k) ((List.range (2 ^ k)).map heap) = r
  have hlA := length_padded A degA (2 ^ k) (by omega)
  have hlB := length_padded B degB (2 ^ k) (by omega)
  have hlt : ∀ i : Nat, (i : Int) < (2 : Int) ^ k → i < 2 ^ k := by
    intro i hi
    have : (i : Int) < (((2 ^ k : Nat)) : Int) := by push_cast; exact hi
    exact_mod_cast this
  refine ⟨_, _, _, rfl, rfl, fun hcap1 hcap2 i hi => ?_⟩
  rw [toNat_two_pow] at hcap1 hcap2
  rw [(copy_spec _ res1 _ hcap1).2 i, (copy_spec _ res2 _ hcap2).2 i, if_pos (hlt i hi),
    if_pos (hlt i hi)]
  rw [pointwise_comm _ _ (2 ^ k) (by rw [length_ntt, hlA]) (by rw [length_ntt, hlB])]

theorem poly_multiply_comm_witness :
    ∃ limit r1 r2, poly_multiply [1, 2] 1 [2, 3] 1 [9, 9, 9, 9] (fun _ => 0) =
        some (limit, r1) ∧
      poly_multiply [2, 3] 1 [1, 2] 1 [8, 8, 8, 8] (fun _ => 0) = some (limit, r2) ∧
      (limit.toNat ≤ [9, 9, 9, (9 : Int)].length → limit.toNat ≤ [8, 8, 8, (8 : Int)].length →
        ∀ i : Nat, (i : Int) < limit → load r1 i = load r2 i) :=
  poly_multiply_comm [1, 2] [2, 3] [9, 9, 9, 9] [8, 8, 8, 8] 1 1 (fun _ => 0) (by norm_num)

/-! ## The field-range invariant of `ntt` -/

theorem ntt_swap_inField (n : Nat) (r : List Int)
    (hr : ∀ i, i < n → 0 ≤ load r i ∧ load r i < n) (a : List Int) (i : Nat) (hi : i < n)
    (h : a.length = n ∧ ∀ j, j < n → InField (load a j)) :
    (ntt_swap r a i).length = n ∧ ∀ j, j < n → InField (load (ntt_swap r a i) j) := by
  obtain ⟨hl, hin⟩ := h
  refine ⟨by rw [length_ntt_swap, hl], fun j hj => ?_⟩
  unfold ntt_swap
  split_ifs
  · have ht : (load r i).toNat < n := by
      have := hr i hi
      omega
    rw [load_store_of_lt (by rw [length_store, hl]; exact ht),
      load_store_of_lt (by rw [hl]; exact hi)]
    split_ifs
    · exact hin i hi
    · exact hin _ ht
    · exact hin j hj
  · exact hin j hj

theorem ntt_butterfly_inRange_of_inField (wn : Int) (mid j : Nat) (a : List Int) (w : Int)
    (k : Nat) (hw : InField w) (hwn : InField wn) (hx : InField (load a (j + k)))
    (hy : InField (load a (j + k + mid))) :
    ntt_butterfly_inRange wn mid j (a, w) k := by
  have hm := mul_bound hw.1 hw.2 hy.1 (inField_le hy)
  have hmF := mulmod_field hw hy
  have hadd := addmod_field hx hmF.1
  have hsub := submod_field hx hmF.1
  have hwm := mul_bound hw.1 hw.2 hwn.1 (inField_le hwn)
  have hwF := mulmod_field hw hwn
  unfold ntt_butterfly_inRange
  simp only []
  generalize (wrap64 (w * load a (j + k + mid))).tmod MOD = y at hmF hadd hsub
  have hyr := hmF.1
  have hxr := hx
  unfold InField at hyr hxr
  simp only [modulus_eq] at hyr hxr
  refine ⟨hw, hwn, hm, hmF.1, ?_, hadd.1, ?_, ?_, hsub.1, hwm, hwF.1⟩
  · unfold InRange63; omega
  · unfold inRange64; omega
  · unfold InRange63; simp only [modulus_eq]; omega

theorem ntt_block_inRange_of_inField (wn : Int) (mid j : Nat) (a : List Int)
    (hwn : InField wn) (hlen : j + 2 * mid ≤ a.length)
    (hin : ∀ i, j ≤ i → i < j + 2 * mid → InField (load a i)) :
    ntt_block_inRange wn mid a j := by
  intro k hk
  obtain ⟨_, hw, _, _, hfr⟩ := ntt_butterfly_loop wn mid j a hwn hlen hin k (by omega)
  generalize (List.range k).foldl (ntt_butterfly wn mid j) (a, 1) = s at hw hfr
  obtain ⟨b, w⟩ := s
  simp only at hw hfr
  apply ntt_butterfly_inRange_of_inField wn mid j b w k hw hwn
  · rw [hfr (j + k) (fun p hp => ⟨by omega, by omega⟩)]
    exact hin _ (by omega) (by omega)
  · rw [hfr (j + k + mid) (fun p hp => ⟨by omega, by omega⟩)]
    exact hin _ (by omega) (by omega)

theorem ntt_blocks_inRange_of_inField (wn : Int) (mid nb : Nat) (hwn : InField wn) :
    ∀ (fuel b : Nat) (a : List Int), b ≤ nb → a.length = nb * (2 * mid) →
    (∀ i, b * (2 * mid) ≤ i → i < nb * (2 * mid) → InField (load a i)) →
    ntt_blocks_inRange wn mid (nb * (2 * mid)) fuel (b * (2 * mid)) a := by
  intro fuel
  induction fuel with
  | zero => intro b a _ _ _; trivial
  | succ fuel ih =>
    intro b a hb hlen hin
    unfold ntt_blocks_inRange
    by_cases hjl : b * (2 * mid) < nb * (2 * mid)
    · have hlt : b < nb := by
        by_contra hcon
        have : nb * (2 * mid) ≤ b * (2 * mid) := Nat.mul_le_mul_right _ (by omega)
        omega
      have hnext : (b + 1) * (2 * mid) = b * (2 * mid) + 2 * mid := by ring
      have hnb : (b + 1) * (2 * mid) ≤ nb * (2 * mid) := Nat.mul_le_mul_right _ hlt
      rw [if_pos hjl, ← hnext]
      refine ⟨ntt_block_inRange_of_inField wn mid _ a hwn (by omega)
        (fun i h1 h2 => hin i h1 (by omega)), ?_⟩
      obtain ⟨hl1, _, hfr1⟩ := ntt_block_spec wn mid (b * (2 * mid)) a hwn (by omega)
        (fun i h1 h2 => hin i h1 (by omega))
      apply ih (b + 1) _ hlt (by rw [hl1, hlen])
      intro i h1 h2
      rw [hfr1 i (Or.inr (by omega))]
      exact hin i (by omega) h2
    · rw [if_neg hjl]
      trivial

/-- One pass leaves an array of field elements. -/
theorem ntt_pass_inField (wn : Int) (mid nb : Nat) (hmid : 0 < mid) (hwn : InField wn)
    (a : List Int) (hlen : a.length = nb * (2 * mid))
    (hin : ∀ i, i < nb * (2 * mid) → InField (load a i)) :
    (ntt_blocks wn mid (nb * (2 * mid)) (nb * (2 * mid)) 0 a).length = nb * (2 * mid) ∧
    ∀ i, i < nb * (2 * mid) →
      InField (load (ntt_blocks wn mid (nb * (2 * mid)) (nb * (2 * mid)) 0 a) i) := by
  obtain ⟨hl2, hv2⟩ := ntt_pass_spec wn mid nb hmid hwn a hlen hin
  refine ⟨by rw [hl2, hlen], fun i hi => ?_⟩
  have hM : 0 < 2 * mid := by omega
  have hb : i / (2 * mid) < nb := by
    rw [Nat.div_lt_iff_lt_mul hM]; exact hi
  have hdm : 2 * mid * (i / (2 * mid)) + i % (2 * mid) = i := Nat.div_add_mod i _
  have hml : i % (2 * mid) < 2 * mid := Nat.mod_lt _ hM
  by_cases hp : i % (2 * mid) < mid
  · have := (hv2 _ hb _ hp).1
    have hi2 : i / (2 * mid) * (2 * mid) + i % (2 * mid) = i := by
      rw [Nat.mul_comm]; exact hdm
    rw [hi2] at this
    exact this
  · have := (hv2 _ hb (i % (2 * mid) - mid) (by omega)).2.1
    have hi2 : i / (2 * mid) * (2 * mid) + (i % (2 * mid) - mid) + mid = i := by
      rw [Nat.mul_comm]; omega
    rw [hi2] at this
    exact this

/-- The call of `qpow` for the block root, for every half-width. -/
theorem wn_inRange (type : Int) (mid : Nat) :
    InField (qpow (if type = 1 then G else G_INV) ((MOD - 1) / ((2 * mid : Nat) : Int))) ∧
    qpow_inRange (if type = 1 then G else G_INV) ((MOD - 1) / ((2 * mid : Nat) : Int)) := by
  have he : (MOD - 1) / ((2 * mid : Nat) : Int) = ((998244352 / (2 * mid) : Nat) : Int) := by
    have : (MOD - 1 : Int) = ((998244352 : Nat) : Int) := by decide
    rw [this, ← Int.natCast_div]
  rw [he]
  have hlt : 998244352 / (2 * mid) < 2 ^ 63 := by
    have := Nat.div_le_self 998244352 (2 * mid)
    omega
  have hg0 : (0 : Int) ≤ (if type = 1 then G else G_INV) := by
    split_ifs <;> decide
  have hg1 : (if type = 1 then G else G_INV) ≤ (3037000499 : Int) := by
    split_ifs <;> decide
  exact (qpow_spec _ _ hg0 hg1 hlt).2

theorem ntt_passes_inRange_of_inField (type : Int) (k : Nat) :
    ∀ (fuel s t : Nat) (a : List Int), s + t = k → a.length = 2 ^ k →
    (∀ i, i < 2 ^ k → InField (load a i)) →
    ntt_passes_inRange type (2 ^ k) fuel (2 ^ t) a ∧
    (ntt_passes type (2 ^ k) fuel (2 ^ t) a).length = 2 ^ k ∧
    ∀ i, i < 2 ^ k → InField (load (ntt_passes type (2 ^ k) fuel (2 ^ t) a) i) := by
  intro fuel
  induction fuel with
  | zero =>
    intro s t a _ hlen hin
    exact ⟨trivial, hlen, hin⟩
  | succ fuel ih =>
    intro s t a hst hlen hin
    unfold ntt_passes_inRange ntt_passes
    by_cases hlt : t < k
    · have h1 : (2 : Nat) ^ t < 2 ^ k := pow_lt_pow_right₀ (by norm_num) hlt
      obtain ⟨s1, rfl⟩ : ∃ s1, s = s1 + 1 := ⟨s - 1, by omega⟩
      have hn2 : (2 : Nat) ^ k = 2 ^ s1 * (2 * 2 ^ t) := by
        rw [← hst]; ring
      have hw := wn_inRange type (2 ^ t)
      rw [if_pos h1, if_pos h1]
      simp only []
      generalize qpow (if type = 1 then G else G_INV) ((MOD - 1) / ((2 * 2 ^ t : Nat) : Int)) = wn
        at hw
      have hpos : 0 < 2 ^ t := by positivity
      have hblocks := ntt_blocks_inRange_of_inField wn (2 ^ t) (2 ^ s1) hw.1 (2 ^ k) 0 a
        (Nat.zero_le _) (by rw [hlen, hn2]) (fun i _ h2 => hin i (by rw [hn2]; exact h2))
      have hpass := ntt_pass_inField wn (2 ^ t) (2 ^ s1) hpos hw.1 a (by rw [hlen, hn2])
        (fun i hi => hin i (by rw [hn2]; exact hi))
      rw [Nat.zero_mul, ← hn2] at hblocks
      rw [← hn2] at hpass
      have h2 : 2 * 2 ^ t = 2 ^ (t + 1) := by rw [pow_succ']
      have hrec := ih s1 (t + 1) _ (by omega) hpass.1 hpass.2
      rw [← h2] at hrec
      exact ⟨⟨hw.2, hblocks, hrec.1⟩, hrec.2⟩
    · have hte : t = k := by omega
      subst hte
      rw [if_neg (lt_irrefl _), if_neg (lt_irrefl _)]
      exact ⟨trivial, hlen, hin⟩

theorem ntt_scale_inRange_of_inField (inv : Int) (n : Nat) (a : List Int) (hinv : InField inv)
    (hlen : a.length = n) (hin : ∀ i, i < n → InField (load a i)) :
    ntt_scale_inRange inv n a ∧
    ∀ i, i < n → InField (load ((List.range n).foldl (ntt_scale inv) a) i) := by
  have hloop := map_loop (fun _ x => (wrap64 (x * inv)).tmod MOD) (ntt_scale inv)
    (fun _ _ => rfl) a
  refine ⟨⟨hinv, fun i hi => ?_⟩, fun i hi => ?_⟩
  · rw [(hloop i (by omega)).2 i, if_neg (lt_irrefl _)]
    exact ⟨mul_bound (hin i hi).1 (hin i hi).2 hinv.1 (inField_le hinv),
      (mulmod_field (hin i hi) hinv).1⟩
  · rw [(hloop n (by omega)).2 i, if_pos hi]
    exact (mulmod_field (hin i hi) hinv).1

/-- C14: for every power-of-two `limit = 2 ^ k` that fits an `int` (`k ≤ 30`),
every array `a` of `limit` entries in `[0, MOD)`, every table `r` of `limit`
entries in `[0, limit)` and every `type`, all values that `ntt` stores (after the
permutation loop, in every butterfly, in the inverse scaling) lie in `[0, MOD)`,
the twiddle `w` and the block root `wn` lie in `[0, MOD)`, every sum,
difference plus `MOD` and product lies in `[0, 2 ^ 63)`, and the calls of `qpow`
do not overflow. -/
theorem ntt_field_range (k : Nat) (a r : List Int) (type : Int) (hk : k ≤ 30)
    (hlen : a.length = 2 ^ k) (ha : ∀ x ∈ a, 0 ≤ x ∧ x < MOD)
    (hrlen : r.length = 2 ^ k) (hr : ∀ x ∈ r, 0 ≤ x ∧ x < 2 ^ k) :
    ntt_inRange a (2 ^ k) type r ∧
    (ntt a (2 ^ k) type r).length = 2 ^ k ∧
    ∀ i, i < 2 ^ k → 0 ≤ load (ntt a (2 ^ k) type r) i ∧ load (ntt a (2 ^ k) type r) i < MOD := by
  have hin := inField_of_mem ha (le_of_eq hlen.symm)
  have hrin : ∀ i, i < 2 ^ k → 0 ≤ load r i ∧ load r i < ((2 ^ k : Nat) : Int) := by
    intro i hi
    have := hr _ (load_mem (by omega : i < r.length))
    push_cast
    exact this
  have hswap := foldl_range_invariant
    (fun s : List Int => s.length = 2 ^ k ∧ ∀ j, j < 2 ^ k → InField (load s j))
    (ntt_swap r) (2 ^ k) (fun s i hi hs => ntt_swap_inField (2 ^ k) r hrin s i hi hs)
    a ⟨hlen, hin⟩ (2 ^ k) (le_refl _)
  obtain ⟨hl1, hin1⟩ := hswap
  have hpass := ntt_passes_inRange_of_inField type k 32 k 0 _ (by omega) hl1 hin1
  rw [pow_zero] at hpass
  obtain ⟨hp1, hl2, hin2⟩ := hpass
  obtain ⟨hi1, hi2, _⟩ := inv_spec_wide k hk
  have hscale := ntt_scale_inRange_of_inField _ (2 ^ k) _ hi1 hl2 hin2
  refine ⟨⟨hin1, hp1, fun _ => ⟨hi2, hscale.1⟩⟩, by rw [length_ntt, hlen], ?_⟩
  unfold ntt
  simp only []
  by_cases ht : type = -1
  · rw [if_pos ht]
    exact hscale.2
  · rw [if_neg ht]
    exact hin2

theorem ntt_field_range_witness :
    ntt_inRange [1, 2, 3, 998244352] (2 ^ 2) (-1) [3, 3, 0, 1] ∧
    (ntt [1, 2, 3, 998244352] (2 ^ 2) (-1) [3, 3, 0, 1]).length = 2 ^ 2 ∧
    ∀ i, i < 2 ^ 2 → 0 ≤ load (ntt [1, 2, 3, 998244352] (2 ^ 2) (-1) [3, 3, 0, 1]) i ∧
      load (ntt [1, 2, 3, 998244352] (2 ^ 2) (-1) [3, 3, 0, 1]) i < MOD :=
  ntt_field_range 2 [1, 2, 3, 998244352] [3, 3, 0, 1] (-1) (by norm_num) rfl (by decide) rfl
    (by decide)

end NTT
